import Mathlib

/-!
Verification of the coordinate-mapping core of cogent3 (`cogent3/core/location.py`).

The Python source stores gap data in numpy `int32` arrays; we model array entries
as unbounded integers (`Int`), which is faithful for every map whose coordinates
fit the machine word, and model Python lists of ints as `List Int`.  Functions
that can `raise` are modelled with `Except String`; a Python function that can
fall off the end (returning `None`) is modelled with an `Option` result.
-/

namespace Cogent3

/-- `numpy.searchsorted(a, v, side="left")` for an ascending array `a`:
the length of the longest prefix of elements `< v` (the leftmost insertion
point of `v`). -/
def ssl : List Int → Int → Nat
  | [], _ => 0
  | a :: t, v => if a < v then ssl t v + 1 else 0

/-- `numpy.searchsorted(a, v, side="right")` for an ascending array `a`:
the length of the longest prefix of elements `≤ v`. -/
def ssr : List Int → Int → Nat
  | [], _ => 0
  | a :: t, v => if a ≤ v then ssr t v + 1 else 0

/-- `numpy.cumsum`. -/
def cumsum : List Int → List Int
  | [] => []
  | a :: t => a :: (cumsum t).map (a + ·)

/-- index of the first occurrence of `v` (the single index produced by
`numpy.where(a == v)` when `a` has unique entries). -/
def findIdxInt (v : Int) : List Int → Nat
  | [] => 0
  | a :: t => if a = v then 0 else findIdxInt v t + 1

/-- Python list indexing where a negative index counts from the end
(used for the unguarded `cum_lengths[index - 1]` accesses). -/
def pyGetD (l : List Int) (i : Int) : Int :=
  if i < 0 then l.getD ((l.length : Int) + i).toNat 0 else l.getD i.toNat 0

/-- insert into an ascending list, keeping order. -/
def insertSorted (x : Int) : List Int → List Int
  | [] => [x]
  | a :: t => if x ≤ a then x :: a :: t else a :: insertSorted x t

/-- ascending sort of an integer list. -/
def sortInts (l : List Int) : List Int := l.foldr insertSorted []

/-- drop duplicates from an ascending list. -/
def dedupSorted : List Int → List Int
  | [] => []
  | [a] => [a]
  | a :: b :: t => if a = b then dedupSorted (b :: t) else a :: dedupSorted (b :: t)

/-- `numpy.union1d`: the sorted list of distinct values of the two inputs. -/
def union1d (a b : List Int) : List Int := dedupSorted (sortInts (a ++ b))

/-- `IndelMap` (the CompactGapMap of the spec): run-length encoded gap data.
`gap_pos` are gap insertion points in sequence coordinates, `cum_gap_lengths`
the running totals of gap lengths, `parent_length` the ungapped length. -/
structure IndelMap where
  gap_pos : List Int
  cum_gap_lengths : List Int
  termini_unknown : Bool
  parent_length : Int
deriving Repr, DecidableEq

namespace IndelMap

/-- `num_gaps`, set from `gap_pos.shape[0]` in `__post_init__`. -/
def num_gaps (m : IndelMap) : Nat := m.gap_pos.length

/-- the constructor called with `gap_lengths=` instead of `cum_gap_lengths=`:
`__post_init__` replaces them by their cumulative sums. -/
def ofGapLengths (gap_pos gap_lengths : List Int) (parent_length : Int) : IndelMap :=
  ⟨gap_pos, cumsum gap_lengths, false, parent_length⟩

/-- the validity invariant of the data model (spec section 3): strictly
ascending insertion points inside `[0, parent_length]`, strictly increasing
positive cumulative lengths, equal array lengths. -/
def sortedLtb : List Int → Bool
  | [] => true
  | [_] => true
  | a :: b :: t => decide (a < b) && sortedLtb (b :: t)

def validb (m : IndelMap) : Bool :=
  sortedLtb m.gap_pos && sortedLtb m.cum_gap_lengths &&
  (m.gap_pos.length == m.cum_gap_lengths.length) &&
  m.gap_pos.all (fun x => decide (0 ≤ x) && decide (x ≤ m.parent_length)) &&
  m.cum_gap_lengths.all (fun x => decide (0 < x)) &&
  decide (0 ≤ m.parent_length)

/-- `IndelMap.__len__`. -/
def lenIM (m : IndelMap) : Int :=
  if m.num_gaps = 0 then m.parent_length
  else m.parent_length + m.cum_gap_lengths.getD (m.num_gaps - 1) 0

/-- `IndelMap.get_gap_lengths`: first differences of `cum_gap_lengths`. -/
def get_gap_lengths (m : IndelMap) : List Int :=
  match m.cum_gap_lengths with
  | [] => []
  | c :: rest => c :: List.zipWith (· - ·) rest (c :: rest)

/-- `_gap_spans` second component: gap end positions in alignment coordinates. -/
def gapEnds (m : IndelMap) : List Int :=
  List.zipWith (· + ·) m.gap_pos m.cum_gap_lengths

/-- `_gap_spans` first component: gap start positions in alignment coordinates
(`starts = gap_pos.copy(); starts[1:] += cum_gap_lengths[:-1]`). -/
def gapStarts (m : IndelMap) : List Int :=
  List.zipWith (· + ·) m.gap_pos (0 :: m.cum_gap_lengths)

/-- `IndelMap.get_align_index`. -/
def get_align_index (m : IndelMap) (seq_index : Int) (slice_stop : Bool) :
    Except String Int :=
  let si := if seq_index < 0 then seq_index + m.parent_length else seq_index
  if si < 0 then .error "negative seq_index beyond limit"
  else if m.num_gaps = 0 ∨ si < m.gap_pos.getD 0 0 then .ok si
  else if slice_stop ∧ si ∈ m.gap_pos then
    let idx := findIdxInt si m.gap_pos
    let gap_len :=
      if idx ≠ 0 then
        m.cum_gap_lengths.getD idx 0 - m.cum_gap_lengths.getD (idx - 1) 0
      else m.cum_gap_lengths.getD idx 0
    let gap_end := m.gap_pos.getD idx 0 + m.cum_gap_lengths.getD idx 0
    .ok (gap_end - gap_len)
  else if m.gap_pos.getD (m.num_gaps - 1) 0 ≤ si then
    .ok (si + m.cum_gap_lengths.getD (m.num_gaps - 1) 0)
  else
    let index := ssl m.gap_pos si
    let gap_lengths :=
      if si < m.gap_pos.getD index 0 then
        (if index ≠ 0 then m.cum_gap_lengths.getD (index - 1) 0 else 0)
      else m.cum_gap_lengths.getD index 0
    .ok (si + gap_lengths)

/-- `IndelMap.get_seq_index`.  The Python body has no final `return`, so a
fall-through would produce `None`; that is the `none` result here. -/
def get_seq_index (m : IndelMap) (align_index : Int) :
    Except String (Option Int) :=
  let ai := if align_index < 0 then lenIM m + align_index else align_index
  if ai < 0 then .error "align_index beyond limit"
  else if m.num_gaps = 0 ∨ ai < m.gap_pos.getD 0 0 then .ok (some ai)
  else if (gapEnds m).getD (m.num_gaps - 1) 0 ≤ ai then
    .ok (some (ai - m.cum_gap_lengths.getD (m.num_gaps - 1) 0))
  else
    let index := ssl (gapEnds m) ai
    if ai < (gapStarts m).getD index 0 then
      .ok (some (ai - pyGetD m.cum_gap_lengths ((index : Int) - 1)))
    else if ai = (gapEnds m).getD index 0 then
      .ok (some (ai - m.cum_gap_lengths.getD index 0))
    else if (gapStarts m).getD index 0 ≤ ai ∧ ai < (gapEnds m).getD index 0 then
      .ok (some (m.gap_pos.getD index 0))
    else .ok none

/-- `IndelMap.__add__`: concatenation of the maps of two aligned sequences. -/
def add (a b : IndelMap) : IndelMap :=
  let gap_pos := a.gap_pos ++ b.gap_pos.map (a.parent_length + ·)
  let cum_length :=
    if a.num_gaps = 0 then 0 else a.cum_gap_lengths.getD (a.num_gaps - 1) 0
  ⟨gap_pos, a.cum_gap_lengths ++ b.cum_gap_lengths.map (cum_length + ·),
    false, a.parent_length + b.parent_length⟩

/-- value paired with `p` in the (unique-keyed) gap table `ps`/`lens`, else 0;
captures what one `_update_lengths` call adds at entry `p` of the union. -/
def lookupLen (p : Int) : List Int → List Int → Int
  | a :: t, l :: lt => if a = p then l else lookupLen p t lt
  | _, _ => 0

/-- `IndelMap.merge_maps` with the default `parent_length` (the union of the
insertion points; `_update_lengths` adds each map's gap length at its own
positions, so coincident points sum). -/
def merge_maps (a b : IndelMap) : IndelMap :=
  let unique_pos := union1d a.gap_pos b.gap_pos
  let gap_lengths := unique_pos.map (fun p =>
    lookupLen p a.gap_pos a.get_gap_lengths +
    lookupLen p b.gap_pos b.get_gap_lengths)
  ofGapLengths unique_pos gap_lengths a.parent_length

/-- `IndelMap.nucleic_reversed`: reflect insertion points about
`parent_length` and reverse the run order. -/
def nucleic_reversed (m : IndelMap) : IndelMap :=
  let lengths := m.get_gap_lengths
  if m.gap_pos.length ≠ 0 then
    ofGapLengths ((m.gap_pos.map (m.parent_length - ·)).reverse)
      lengths.reverse m.parent_length
  else ofGapLengths m.gap_pos lengths m.parent_length

/-- `IndelMap.__getitem__` for a `slice` argument with unit step.
`start0`/`stop0` are the slice bounds (`item.start or 0` and
`item.stop if item.stop is not None else len(self)` in the source). -/
def getitem_slice (m : IndelMap) (start0 stop0 : Int) : Except String IndelMap :=
  let start1 := if start0 < 0 then lenIM m + start0 else start0
  let stop1 := if stop0 < 0 then lenIM m + stop0 else stop0
  if min start1 stop1 < 0 then .error "item.start or item.stop is out of range"
  else if stop1 ≤ start1 then .ok ⟨[], [], false, 0⟩
  else
    let no_gaps : IndelMap := ⟨[], [], false, stop1 - start1⟩
    if m.num_gaps = 0 then .ok no_gaps
    else
      let first_gap := m.gap_pos.getD 0 0
      let last_gap := m.gap_pos.getD (m.num_gaps - 1) 0 +
        m.cum_gap_lengths.getD (m.num_gaps - 1) 0
      if stop1 < first_gap ∨ last_gap ≤ start1 then .ok no_gaps
      else
        let gs := gapStarts m
        let ge := gapEnds m
        let l := ssl ge start1
        if (gs.getD l 0 ≤ start1 ∧ start1 < ge.getD l 0) ∧ stop1 ≤ ge.getD l 0 then
          -- entire span within a single gap
          .ok ⟨[0], [stop1 - start1], false, 0⟩
        else
          let lengths0 := m.get_gap_lengths
          -- (begin index, shift, gap lengths possibly trimmed at the start)
          let bsl : Nat × Int × List Int :=
            if start1 < first_gap then (0, start1, lengths0)
            else if gs.getD l 0 ≤ start1 ∧ start1 < ge.getD l 0 then
              let begin_diff := start1 - gs.getD l 0
              let lengths1 := lengths0.set l (lengths0.getD l 0 - begin_diff)
              let shift := if l ≠ 0 then
                  start1 - m.cum_gap_lengths.getD (l - 1) 0 - begin_diff
                else m.gap_pos.getD 0 0
              (l, shift, lengths1)
            else if start1 = ge.getD l 0 then
              (l + 1, start1 - m.cum_gap_lengths.getD l 0, lengths0)
            else
              (l, (if l ≠ 0 then start1 - m.cum_gap_lengths.getD (l - 1) 0
                   else start1), lengths0)
          let bi := bsl.1
          let shift := bsl.2.1
          let lengths1 := bsl.2.2
          let r := ssr (ge.drop l) stop1 + l
          -- (end index, gap lengths possibly trimmed at the stop)
          let el : Nat × List Int :=
            if r = m.num_gaps then (r, lengths1)
            else if gs.getD r 0 < stop1 ∧ stop1 ≤ ge.getD r 0 then
              (r + 1, lengths1.set r (lengths1.getD r 0 - (ge.getD r 0 - stop1)))
            else (r, lengths1)
          let ei := el.1
          let lengths2 := el.2
          let pos_result := ((m.gap_pos.take ei).drop bi).map (· - shift)
          let lengths3 := (lengths2.take ei).drop bi
          match get_seq_index m stop1, get_seq_index m start1 with
          | .ok (some b), .ok (some a) =>
            .ok (ofGapLengths pos_result lengths3 (b - a))
          | _, _ => .error "unreachable: get_seq_index fell through"

end IndelMap

/-- the persisted dictionary of an `IndelMap` (`to_rich_dict`); only the keys
the round trip touches are modelled, the `type` tag standing for
`get_object_provenance`. -/
structure RichDict where
  type_ : String
  version : String
  gap_pos : List Int
  cum_gap_lengths : List Int
  termini_unknown : Bool
  parent_length : Int
deriving Repr, DecidableEq

def indelMapProvenance : String := "cogent3.core.location.IndelMap"

def versionString : String := "2024.12.19a2"

namespace IndelMap

/-- `IndelMap.to_rich_dict`. -/
def to_rich_dict (m : IndelMap) : RichDict :=
  ⟨indelMapProvenance, versionString, m.gap_pos, m.cum_gap_lengths,
    m.termini_unknown, m.parent_length⟩

/-- `IndelMap.from_rich_dict`: the `assert` on the `type` tag followed by the
constructor (whose `__post_init__` validates the array lengths and the last
gap position). -/
def from_rich_dict (d : RichDict) : Except String IndelMap :=
  if d.type_ ≠ indelMapProvenance then .error "type tag is not IndelMap"
  else if d.gap_pos.length ≠ d.cum_gap_lengths.length then
    .error "length of gap_pos != length of gap lengths"
  else if d.gap_pos.length ≠ 0 ∧
      d.parent_length < d.gap_pos.getD (d.gap_pos.length - 1) 0 then
    .error "gap position outside parent_length"
  else .ok ⟨d.gap_pos, d.cum_gap_lengths, d.termini_unknown, d.parent_length⟩

end IndelMap

/-- `Span`/`LostSpan` as held by a `FeatureMap`; a `Span` stores
`start ≤ end_` with a separate orientation flag, a `LostSpan` only a length. -/
inductive MSpan where
  | span (start end_ : Int) (rev : Bool)
  | lost (len : Int)
deriving Repr, DecidableEq

/-- `len(span)`. -/
def spanLen : MSpan → Int
  | .span s e _ => e - s
  | .lost n => n

/-- `FeatureMap`: an ordered list of spans over a parent sequence. -/
structure FeatureMap where
  spans : List MSpan
  parent_length : Int
deriving Repr, DecidableEq

namespace FeatureMap

/-- `FeatureMap.__len__` (the running `posn` total of `__post_init__`). -/
def lenFM (m : FeatureMap) : Int := (m.spans.map spanLen).sum

/-- the `temp` list built by `FeatureMap.inverse`: for each non-lost span, in
order, `(start, end, cum_start, cum_end)` where the cum pair is reversed for
a reverse-oriented span; `cum_posn` advances by every span's length. -/
def tempGo (cum : Int) : List MSpan → List (Int × Int × Int × Int)
  | [] => []
  | .lost n :: rest => tempGo (cum + n) rest
  | .span s e rev :: rest =>
    (if rev then (s, e, cum + (e - s), cum) else (s, e, cum, cum + (e - s))) ::
      tempGo (cum + (e - s)) rest

/-- lexicographic comparison of the 4-tuples, as Python `list.sort` uses. -/
def lex4le (a b : Int × Int × Int × Int) : Bool :=
  decide (a.1 < b.1) ||
  (decide (a.1 = b.1) && (decide (a.2.1 < b.2.1) ||
    (decide (a.2.1 = b.2.1) && (decide (a.2.2.1 < b.2.2.1) ||
      (decide (a.2.2.1 = b.2.2.1) && decide (a.2.2.2 ≤ b.2.2.2))))))

def insertLex4 (x : Int × Int × Int × Int) :
    List (Int × Int × Int × Int) → List (Int × Int × Int × Int)
  | [] => [x]
  | a :: t => if lex4le x a then x :: a :: t else a :: insertLex4 x t

/-- `temp.sort()`: since lexicographic order on integer tuples is a total
antisymmetric order, any sorting algorithm produces the same list. -/
def sortLex4 (l : List (Int × Int × Int × Int)) :
    List (Int × Int × Int × Int) :=
  l.foldr insertLex4 []

/-- the span emitted for one tuple: `Span(cum_start, cum_end,
reverse=cum_start > cum_end)`; the `Span` constructor swaps a descending
pair so that `start ≤ end` always holds, keeping the passed `reverse`. -/
def mkInvSpan (cs ce : Int) : MSpan :=
  .span (min cs ce) (max cs ce) (decide (ce < cs))

/-- the main loop of `FeatureMap.inverse` over the sorted tuples, tracking
`last_start` and appending a final `LostSpan` for any tail of the parent. -/
def invFold (parent_len : Int) (last_start : Int) :
    List (Int × Int × Int × Int) → Except String (List MSpan)
  | [] =>
    .ok (if last_start < parent_len then [.lost (parent_len - last_start)] else [])
  | (s, e, cs, ce) :: rest =>
    if last_start < s then
      (invFold parent_len e rest).map
        (fun tail => .lost (s - last_start) :: mkInvSpan cs ce :: tail)
    else if s < last_start then .error "Uninvertable. Overlap"
    else (invFold parent_len e rest).map (fun tail => mkInvSpan cs ce :: tail)

/-- `FeatureMap.inverse` (the `parent_length is None` failure cannot occur
here since `parent_length` is always an integer in this model). -/
def inverse (m : FeatureMap) : Except String FeatureMap :=
  (invFold m.parent_length 0 (sortLex4 (tempGo 0 m.spans))).map
    (fun ns => ⟨ns, lenFM m⟩)

/-- validity of one span (spec sections 3 and 7): coordinates non-negative
and ordered, lost lengths non-negative. -/
def spanOkb : MSpan → Bool
  | .span s e _ => decide (0 ≤ s) && decide (s ≤ e)
  | .lost n => decide (0 ≤ n)

/-- validity of a `FeatureMap`. -/
def validb (m : FeatureMap) : Bool := m.spans.all spanOkb

/-- the claim's overlap condition: among the non-lost spans sorted by source
position, some consecutive pair has the next start strictly before the
previous end. -/
def overlapChk : List (Int × Int × Int × Int) → Bool
  | [] => false
  | [_] => false
  | a :: b :: t => decide (b.1 < a.2.1) || overlapChk (b :: t)

def overlapb (m : FeatureMap) : Bool :=
  overlapChk (sortLex4 (tempGo 0 m.spans))

end FeatureMap

/-- whether an `Except` result is a success. -/
def exceptOk {ε α : Type} : Except ε α → Bool
  | .ok _ => true
  | .error _ => false

/-- proof-side helper: first differences of a list against a starting value,
so `get_gap_lengths` is `dfrom 0 cum_gap_lengths`. -/
def dfrom (p : Int) : List Int → List Int
  | [] => []
  | c :: t => (c - p) :: dfrom c t

/-- spec-side value: the total gap length accumulated at or before sequence
position `sv` — the sum of the lengths of the gap runs whose insertion point
is `≤ sv` (a prefix, since `gap_pos` ascends). -/
def cumAtSum (m : IndelMap) (sv : Int) : Int :=
  (m.get_gap_lengths.take (ssr m.gap_pos sv)).sum

/-- spec-side value: the number of gap (alignment) positions strictly before
alignment position `a` contributed by gap run `i`. -/
def clampTerm (m : IndelMap) (a : Int) (i : Nat) : Int :=
  max 0 (min (m.get_gap_lengths.getD i 0) (a - (IndelMap.gapStarts m).getD i 0))

/-- spec-side value: the total number of gap positions strictly before
alignment position `a`. -/
def gamma (m : IndelMap) (a : Int) : Int :=
  ∑ i in Finset.range m.num_gaps, clampTerm m a i

/-- insertion by first component into a list ascending by first component. -/
def insertPairFst (x : Int × Int) : List (Int × Int) → List (Int × Int)
  | [] => [x]
  | a :: t => if x.1 ≤ a.1 then x :: a :: t else a :: insertPairFst x t

/-- `sorted(gaps_lengths.items())` for a dict with unique keys. -/
def sortPairsFst (l : List (Int × Int)) : List (Int × Int) :=
  l.foldr insertPairFst []

/-- `gap_coords_to_map`: build an `IndelMap` from `{gap pos: gap length}`. -/
def gap_coords_to_map (gaps_lengths : List (Int × Int)) (seq_length : Int) :
    IndelMap :=
  if gaps_lengths = [] then IndelMap.ofGapLengths [] [] seq_length
  else
    let sorted := sortPairsFst gaps_lengths
    IndelMap.ofGapLengths (sorted.map (·.1)) (sorted.map (·.2)) seq_length

/-- the unpacked validity invariant of an `IndelMap` (propositional form of
`validb`). -/
structure VParts (m : IndelMap) : Prop where
  hps : m.gap_pos.Pairwise (· < ·)
  hcs : m.cum_gap_lengths.Pairwise (· < ·)
  hlen : m.gap_pos.length = m.cum_gap_lengths.length
  hbnd : ∀ x ∈ m.gap_pos, 0 ≤ x ∧ x ≤ m.parent_length
  hpos : ∀ x ∈ m.cum_gap_lengths, 0 < x
  hpl : 0 ≤ m.parent_length

/-! ### Toolkit: searchsorted, sortedness, differences, cumulative sums -/

theorem ssl_le (l : List Int) (v : Int) : ssl l v ≤ l.length := by
  induction l with
  | nil => simp [ssl]
  | cons a t ih =>
    simp only [ssl, List.length_cons]
    split <;> omega

theorem ssr_le (l : List Int) (v : Int) : ssr l v ≤ l.length := by
  induction l with
  | nil => simp [ssr]
  | cons a t ih =>
    simp only [ssr, List.length_cons]
    split <;> omega

theorem ssl_lt_elem (l : List Int) (v : Int) :
    ∀ i, i < ssl l v → l.getD i 0 < v := by
  induction l with
  | nil => intro i hi; simp [ssl] at hi
  | cons a t ih =>
    intro i hi
    by_cases h : a < v
    · simp only [ssl, if_pos h] at hi
      cases i with
      | zero => simpa using h
      | succ j => simpa using ih j (by omega)
    · simp [ssl, if_neg h] at hi

theorem ssr_elem (l : List Int) (v : Int) :
    ∀ i, i < ssr l v → l.getD i 0 ≤ v := by
  induction l with
  | nil => intro i hi; simp [ssr] at hi
  | cons a t ih =>
    intro i hi
    by_cases h : a ≤ v
    · simp only [ssr, if_pos h] at hi
      cases i with
      | zero => simpa using h
      | succ j => simpa using ih j (by omega)
    · simp [ssr, if_neg h] at hi

theorem ssl_stop (l : List Int) (v : Int) (h : ssl l v < l.length) :
    v ≤ l.getD (ssl l v) 0 := by
  induction l with
  | nil => simp [ssl] at h
  | cons a t ih =>
    by_cases hav : a < v
    · simp only [ssl, if_pos hav, List.length_cons] at h ⊢
      simpa using ih (by omega)
    · simp only [ssl, if_neg hav]
      simpa using le_of_not_lt hav

theorem ssr_stop (l : List Int) (v : Int) (h : ssr l v < l.length) :
    v < l.getD (ssr l v) 0 := by
  induction l with
  | nil => simp [ssr] at h
  | cons a t ih =>
    by_cases hav : a ≤ v
    · simp only [ssr, if_pos hav, List.length_cons] at h ⊢
      simpa using ih (by omega)
    · simp only [ssr, if_neg hav]
      simpa using lt_of_not_le hav

theorem ssl_le_ssr (l : List Int) (v : Int) : ssl l v ≤ ssr l v := by
  induction l with
  | nil => simp [ssl, ssr]
  | cons a t ih =>
    by_cases h : a < v
    · simp only [ssl, ssr, if_pos h, if_pos (le_of_lt h)]
      omega
    · simp [ssl, if_neg h]

theorem ssr_eq_of_ssl_eq_length (l : List Int) (v : Int)
    (h : ssl l v = l.length) : ssr l v = l.length := by
  have h1 := ssl_le_ssr l v
  have h2 := ssr_le l v
  omega

theorem ssr_eq_ssl_of_gt (l : List Int) (v : Int)
    (hgt : v < l.getD (ssl l v) 0) : ssr l v = ssl l v := by
  induction l with
  | nil => simp [ssl, ssr]
  | cons a t ih =>
    by_cases h : a < v
    · simp only [ssl, if_pos h, List.getD_cons_succ] at hgt
      simp only [ssl, ssr, if_pos h, if_pos (le_of_lt h)]
      rw [ih hgt]
    · simp only [ssl, if_neg h, List.getD_cons_zero] at hgt
      simp [ssr, ssl, if_neg h, not_le.mpr hgt]

theorem ssr_eq_ssl_succ (l : List Int) (v : Int) (hp : l.Pairwise (· < ·))
    (h : ssl l v < l.length) (he : l.getD (ssl l v) 0 = v) :
    ssr l v = ssl l v + 1 := by
  induction l with
  | nil => simp [ssl] at h
  | cons a t ih =>
    by_cases hav : a < v
    · simp only [ssl, if_pos hav, List.length_cons, List.getD_cons_succ] at h he ⊢
      simp only [ssr, if_pos (le_of_lt hav)]
      rw [ih (List.Pairwise.of_cons hp) (by omega) he]
    · simp only [ssl, if_neg hav, List.getD_cons_zero] at he ⊢
      subst he
      simp only [ssr, if_pos (le_refl _)]
      cases t with
      | nil => simp [ssr]
      | cons b t2 =>
        have hab : a < b := (List.pairwise_cons.mp hp).1 b (by simp)
        simp [ssr, not_le.mpr hab]

theorem ssr_eq_length_of_all (l : List Int) (v : Int)
    (h : ∀ x ∈ l, x ≤ v) : ssr l v = l.length := by
  induction l with
  | nil => simp [ssr]
  | cons a t ih =>
    simp only [ssr, if_pos (h a (by simp)), List.length_cons]
    rw [ih (fun x hx => h x (by simp [hx]))]

theorem ssr_map_add (l : List Int) (c v : Int) :
    ssr (l.map (c + ·)) (c + v) = ssr l v := by
  induction l with
  | nil => simp [ssr]
  | cons a t ih =>
    by_cases h : a ≤ v
    · simp only [List.map_cons, ssr, if_pos h, if_pos (by omega : c + a ≤ c + v)]
      rw [ih]
    · simp only [List.map_cons, ssr, if_neg h,
        if_neg (by omega : ¬ c + a ≤ c + v)]

theorem ssr_append_all (xs ys : List Int) (v : Int)
    (h : ∀ x ∈ xs, x ≤ v) : ssr (xs ++ ys) v = xs.length + ssr ys v := by
  induction xs with
  | nil => simp
  | cons a t ih =>
    simp only [List.cons_append, ssr, if_pos (h a (by simp)), List.length_cons]
    have := ih (fun x hx => h x (by simp [hx]))
    simp only [List.append_eq] at this ⊢
    omega

theorem sortedLtb_pairwise :
    ∀ {l : List Int}, IndelMap.sortedLtb l = true → l.Pairwise (· < ·)
  | [], _ => List.Pairwise.nil
  | [_], _ => by simp
  | a :: b :: t, h => by
    simp only [IndelMap.sortedLtb, Bool.and_eq_true, decide_eq_true_eq] at h
    have ih := sortedLtb_pairwise h.2
    refine List.Pairwise.cons ?_ ih
    intro x hx
    rcases List.mem_cons.mp hx with rfl | hx2
    · exact h.1
    · exact h.1.trans ((List.pairwise_cons.mp ih).1 x hx2)

theorem getD_mem (l : List Int) (i : Nat) (h : i < l.length) :
    l.getD i 0 ∈ l := by
  rw [List.getD_eq_getElem l 0 h]
  exact List.getElem_mem h

theorem pairwise_getD_lt {l : List Int} (hp : l.Pairwise (· < ·)) {i j : Nat}
    (hij : i < j) (hj : j < l.length) : l.getD i 0 < l.getD j 0 := by
  rw [List.getD_eq_getElem l 0 (lt_trans hij hj), List.getD_eq_getElem l 0 hj]
  have := List.pairwise_iff_get.mp hp ⟨i, lt_trans hij hj⟩ ⟨j, hj⟩ hij
  simpa using this

theorem pairwise_getD_le {l : List Int} (hp : l.Pairwise (· < ·)) {i j : Nat}
    (hij : i ≤ j) (hj : j < l.length) : l.getD i 0 ≤ l.getD j 0 := by
  rcases eq_or_lt_of_le hij with rfl | h
  · exact le_refl _
  · exact le_of_lt (pairwise_getD_lt hp h hj)

theorem getD_of_le_length (l : List Int) (i : Nat) (h : l.length ≤ i) :
    l.getD i 0 = 0 := by
  simp [List.getD_eq_getElem?_getD, List.getElem?_eq_none h]

theorem dfrom_length (p : Int) (l : List Int) : (dfrom p l).length = l.length := by
  induction l generalizing p with
  | nil => rfl
  | cons c t ih => simp [dfrom, ih]

theorem zipWith_sub_eq_dfrom (c : Int) (rest : List Int) :
    List.zipWith (· - ·) rest (c :: rest) = dfrom c rest := by
  induction rest generalizing c with
  | nil => rfl
  | cons b t ih =>
    simp only [List.zipWith_cons_cons, dfrom]
    rw [ih b]

theorem get_gap_lengths_eq_dfrom (m : IndelMap) :
    m.get_gap_lengths = dfrom 0 m.cum_gap_lengths := by
  rcases hcs : m.cum_gap_lengths with _ | ⟨c, rest⟩
  · simp [IndelMap.get_gap_lengths, hcs, dfrom]
  · simp [IndelMap.get_gap_lengths, hcs, dfrom, zipWith_sub_eq_dfrom]

theorem dfrom_getD (p : Int) (l : List Int) (i : Nat) (h : i < l.length) :
    (dfrom p l).getD i 0 =
      l.getD i 0 - (if i = 0 then p else l.getD (i - 1) 0) := by
  induction l generalizing p i with
  | nil => simp at h
  | cons c t ih =>
    cases i with
    | zero => simp [dfrom]
    | succ j =>
      simp only [dfrom, List.getD_cons_succ]
      rw [ih c j (by simpa using h)]
      cases j with
      | zero => simp
      | succ k => simp

theorem sum_take_dfrom (p : Int) (l : List Int) (k : Nat) (hk : k ≤ l.length) :
    ((dfrom p l).take k).sum =
      (if k = 0 then p else l.getD (k - 1) 0) - p := by
  induction l generalizing p k with
  | nil =>
    have : k = 0 := by simpa using hk
    subst this
    simp [dfrom]
  | cons c t ih =>
    cases k with
    | zero => simp
    | succ j =>
      simp only [dfrom, List.take_succ_cons, List.sum_cons]
      rw [ih c j (by simpa using hk)]
      cases j with
      | zero => simp
      | succ k2 => simp

theorem cumsum_length (l : List Int) : (cumsum l).length = l.length := by
  induction l with
  | nil => rfl
  | cons a t ih => simp [cumsum, ih]

theorem dfrom_map_add (a : Int) (l : List Int) :
    ∀ p, dfrom (a + p) (l.map (a + ·)) = dfrom p l := by
  induction l with
  | nil => intro p; rfl
  | cons c t ih =>
    intro p
    simp only [List.map_cons, dfrom]
    rw [show a + c - (a + p) = c - p by ring]
    rw [ih c]

theorem dfrom_cumsum (l : List Int) : dfrom 0 (cumsum l) = l := by
  induction l with
  | nil => rfl
  | cons a t ih =>
    simp only [cumsum, dfrom]
    rw [show a - 0 = a by ring]
    congr 1
    have h := dfrom_map_add a (cumsum t) 0
    rw [show a + 0 = a by ring] at h
    rw [h, ih]

theorem cumsum_map_shift (l : List Int) :
    ∀ p, (cumsum (dfrom p l)).map (p + ·) = l := by
  induction l with
  | nil => intro p; rfl
  | cons c t ih =>
    intro p
    simp only [dfrom, cumsum, List.map_cons]
    congr 1
    · ring
    · rw [List.map_map]
      have heq : ((p + ·) ∘ ((c - p) + ·)) = (c + ·) := by
        funext x
        simp only [Function.comp]
        ring
      rw [heq]
      exact ih c

theorem cumsum_dfrom_zero (l : List Int) : cumsum (dfrom 0 l) = l := by
  have h := cumsum_map_shift l 0
  have h2 : (cumsum (dfrom 0 l)).map (0 + ·) = cumsum (dfrom 0 l) := by simp
  rw [← h2]
  exact h

theorem cumsum_getD (l : List Int) :
    ∀ i, i < l.length → (cumsum l).getD i 0 = (l.take (i + 1)).sum := by
  induction l with
  | nil => intro i hi; simp at hi
  | cons a t ih =>
    intro i hi
    cases i with
    | zero => simp [cumsum]
    | succ j =>
      have hj : j < t.length := by simpa using hi
      have hj2 : j < (cumsum t).length := by rw [cumsum_length]; exact hj
      simp only [cumsum, List.getD_cons_succ]
      rw [List.getD_eq_getElem _ 0 (by simpa using hj2), List.getElem_map,
        ← List.getD_eq_getElem _ 0 hj2, ih j hj]
      simp

theorem cumsum_getD_last (l : List Int) (h : l ≠ []) :
    (cumsum l).getD (l.length - 1) 0 = l.sum := by
  have hlen : 0 < l.length := List.length_pos.mpr h
  rw [cumsum_getD l _ (by omega)]
  rw [show l.length - 1 + 1 = l.length from by omega]
  rw [List.take_length]

theorem take_sum_getD (l : List Int) :
    ∀ k, k ≤ l.length → (l.take k).sum = ∑ i in Finset.range k, l.getD i 0 := by
  induction l with
  | nil =>
    intro k hk
    have : k = 0 := by simpa using hk
    subst this
    simp
  | cons a t ih =>
    intro k hk
    cases k with
    | zero => simp
    | succ j =>
      simp only [List.take_succ_cons, List.sum_cons]
      rw [ih j (by simpa using hk)]
      rw [Finset.sum_range_succ' (fun i => (a :: t).getD i 0) j]
      simp only [List.getD_cons_succ, List.getD_cons_zero]
      ring

theorem getD_set_lt (l : List Int) (i j : Nat) (x : Int) (hj : j < l.length) :
    (l.set i x).getD j 0 = if i = j then x else l.getD j 0 := by
  rw [List.getD_eq_getElem _ 0 (by simpa using hj)]
  rw [List.getElem_set]
  split
  · rfl
  · rw [List.getD_eq_getElem _ 0 hj]

theorem drop_take_sum (l : List Int) (b e : Nat) (hbe : b ≤ e)
    (he : e ≤ l.length) :
    ((l.take e).drop b).sum = ∑ i in Finset.Ico b e, l.getD i 0 := by
  have h1 : l.take e = (l.take e).take b ++ (l.take e).drop b :=
    (List.take_append_drop b (l.take e)).symm
  have h2 : (l.take e).take b = l.take b := by
    rw [List.take_take]
    congr 1
    omega
  have hsum : (l.take e).sum = (l.take b).sum + ((l.take e).drop b).sum := by
    conv_lhs => rw [h1]
    rw [List.sum_append, h2]
  have ht1 := take_sum_getD l e he
  have ht2 := take_sum_getD l b (le_trans hbe he)
  rw [Finset.sum_Ico_eq_sub _ hbe]
  omega

/-! ### Accessor and monotonicity lemmas for `IndelMap` -/

namespace IndelMap

theorem validb_vparts (m : IndelMap) (hv : validb m = true) : VParts m := by
  simp only [validb, Bool.and_eq_true, beq_iff_eq, List.all_eq_true,
    decide_eq_true_eq] at hv
  obtain ⟨⟨⟨⟨⟨h1, h2⟩, h3⟩, h4⟩, h5⟩, h6⟩ := hv
  exact ⟨sortedLtb_pairwise h1, sortedLtb_pairwise h2, h3, h4, h5, h6⟩

theorem gapEnds_length (m : IndelMap)
    (hlen : m.gap_pos.length = m.cum_gap_lengths.length) :
    (gapEnds m).length = m.num_gaps := by
  simp [gapEnds, num_gaps, hlen]

theorem gapStarts_length (m : IndelMap)
    (hlen : m.gap_pos.length = m.cum_gap_lengths.length) :
    (gapStarts m).length = m.num_gaps := by
  simp only [gapStarts, List.length_zipWith, List.length_cons, num_gaps]
  omega

theorem gapEnds_getD (m : IndelMap)
    (hlen : m.gap_pos.length = m.cum_gap_lengths.length)
    (i : Nat) (hi : i < m.num_gaps) :
    (gapEnds m).getD i 0 = m.gap_pos.getD i 0 + m.cum_gap_lengths.getD i 0 := by
  have h1 : i < (gapEnds m).length := by rw [gapEnds_length m hlen]; exact hi
  have h2 : i < m.gap_pos.length := hi
  have h3 : i < m.cum_gap_lengths.length := by omega
  rw [List.getD_eq_getElem _ 0 h1]
  simp only [gapEnds, List.getElem_zipWith]
  rw [← List.getD_eq_getElem m.gap_pos 0 h2,
    ← List.getD_eq_getElem m.cum_gap_lengths 0 h3]

theorem gapStarts_getD (m : IndelMap)
    (hlen : m.gap_pos.length = m.cum_gap_lengths.length)
    (i : Nat) (hi : i < m.num_gaps) :
    (gapStarts m).getD i 0 = m.gap_pos.getD i 0 +
      (if i = 0 then 0 else m.cum_gap_lengths.getD (i - 1) 0) := by
  have h1 : i < (gapStarts m).length := by rw [gapStarts_length m hlen]; exact hi
  have h2 : i < m.gap_pos.length := hi
  rw [List.getD_eq_getElem _ 0 h1]
  simp only [gapStarts, List.getElem_zipWith]
  rw [← List.getD_eq_getElem m.gap_pos 0 h2]
  cases i with
  | zero => simp
  | succ j =>
    have h3 : j < m.cum_gap_lengths.length := by
      have := h2
      omega
    simp only [List.getD_cons_succ, Nat.add_sub_cancel, if_neg (Nat.succ_ne_zero j),
      List.getElem_cons_succ]
    rw [List.getD_eq_getElem m.cum_gap_lengths 0 h3]

theorem lens_length (m : IndelMap) :
    m.get_gap_lengths.length = m.cum_gap_lengths.length := by
  rw [get_gap_lengths_eq_dfrom, dfrom_length]

theorem lens_getD (m : IndelMap) (i : Nat)
    (hi : i < m.cum_gap_lengths.length) :
    m.get_gap_lengths.getD i 0 = m.cum_gap_lengths.getD i 0 -
      (if i = 0 then 0 else m.cum_gap_lengths.getD (i - 1) 0) := by
  rw [get_gap_lengths_eq_dfrom, dfrom_getD 0 _ i hi]

theorem lens_getD_pos (m : IndelMap) (hm : VParts m) (i : Nat)
    (hi : i < m.cum_gap_lengths.length) : 0 < m.get_gap_lengths.getD i 0 := by
  rw [lens_getD m i hi]
  cases i with
  | zero =>
    simpa using hm.hpos _ (getD_mem m.cum_gap_lengths 0 hi)
  | succ j =>
    simp only [if_neg (Nat.succ_ne_zero j), Nat.add_sub_cancel, Nat.succ_eq_add_one]
    have := pairwise_getD_lt hm.hcs (show j < j + 1 by omega) hi
    omega

theorem starts_add_lens (m : IndelMap) (hm : VParts m) (i : Nat)
    (hi : i < m.num_gaps) :
    (gapStarts m).getD i 0 + m.get_gap_lengths.getD i 0 =
      (gapEnds m).getD i 0 := by
  have hcslen : i < m.cum_gap_lengths.length := by
    have := hm.hlen
    simp only [num_gaps] at hi
    omega
  rw [gapStarts_getD m hm.hlen i hi, gapEnds_getD m hm.hlen i hi,
    lens_getD m i hcslen]
  ring

theorem starts_lt_ends (m : IndelMap) (hm : VParts m) (i : Nat)
    (hi : i < m.num_gaps) : (gapStarts m).getD i 0 < (gapEnds m).getD i 0 := by
  have hcslen : i < m.cum_gap_lengths.length := by
    have := hm.hlen
    simp only [num_gaps] at hi
    omega
  have h1 := starts_add_lens m hm i hi
  have h2 := lens_getD_pos m hm i hcslen
  omega

theorem ends_strictMono (m : IndelMap) (hm : VParts m) {i j : Nat}
    (hij : i < j) (hj : j < m.num_gaps) :
    (gapEnds m).getD i 0 < (gapEnds m).getD j 0 := by
  have hcslen : j < m.cum_gap_lengths.length := by
    have := hm.hlen
    simp only [num_gaps] at hj
    omega
  rw [gapEnds_getD m hm.hlen i (lt_trans hij hj), gapEnds_getD m hm.hlen j hj]
  have h1 := pairwise_getD_lt hm.hps hij hj
  have h2 := pairwise_getD_lt hm.hcs hij hcslen
  omega

theorem starts_strictMono (m : IndelMap) (hm : VParts m) {i j : Nat}
    (hij : i < j) (hj : j < m.num_gaps) :
    (gapStarts m).getD i 0 < (gapStarts m).getD j 0 := by
  have hcslen : j - 1 < m.cum_gap_lengths.length := by
    have := hm.hlen
    simp only [num_gaps] at hj
    omega
  rw [gapStarts_getD m hm.hlen i (lt_trans hij hj), gapStarts_getD m hm.hlen j hj]
  have h1 := pairwise_getD_lt hm.hps hij hj
  have hj0 : ¬ (j = 0) := by omega
  rw [if_neg hj0]
  cases i with
  | zero =>
    simp only [reduceIte]
    have := hm.hpos _ (getD_mem m.cum_gap_lengths (j - 1) hcslen)
    omega
  | succ i2 =>
    rw [if_neg (Nat.succ_ne_zero i2)]
    have h2 : m.cum_gap_lengths.getD (i2 + 1 - 1) 0 ≤
        m.cum_gap_lengths.getD (j - 1) 0 :=
      pairwise_getD_le hm.hcs (by omega) hcslen
    omega

theorem ends_lt_starts (m : IndelMap) (hm : VParts m) {i j : Nat}
    (hij : i < j) (hj : j < m.num_gaps) :
    (gapEnds m).getD i 0 < (gapStarts m).getD j 0 := by
  have hnum : m.num_gaps = m.cum_gap_lengths.length := by
    have := hm.hlen
    simp only [num_gaps]
    omega
  have hcsi : i ≤ j - 1 := by omega
  have hj1 : j - 1 < m.cum_gap_lengths.length := by omega
  have h2 := pairwise_getD_le hm.hcs hcsi hj1
  rw [gapEnds_getD m hm.hlen i (lt_trans hij hj), gapStarts_getD m hm.hlen j hj]
  have h1 := pairwise_getD_lt hm.hps hij hj
  rw [if_neg (show ¬ (j = 0) by omega)]
  omega

theorem starts_mono (m : IndelMap) (hm : VParts m) {i j : Nat}
    (hij : i ≤ j) (hj : j < m.num_gaps) :
    (gapStarts m).getD i 0 ≤ (gapStarts m).getD j 0 := by
  rcases eq_or_lt_of_le hij with rfl | h
  · exact le_refl _
  · exact le_of_lt (starts_strictMono m hm h hj)

theorem ends_mono (m : IndelMap) (hm : VParts m) {i j : Nat}
    (hij : i ≤ j) (hj : j < m.num_gaps) :
    (gapEnds m).getD i 0 ≤ (gapEnds m).getD j 0 := by
  rcases eq_or_lt_of_le hij with rfl | h
  · exact le_refl _
  · exact le_of_lt (ends_strictMono m hm h hj)

end IndelMap

theorem mem_getD {l : List Int} {x : Int} (hx : x ∈ l) :
    ∃ i, i < l.length ∧ l.getD i 0 = x := by
  obtain ⟨i, hi⟩ := List.mem_iff_get.mp hx
  refine ⟨i, i.isLt, ?_⟩
  rw [List.getD_eq_getElem _ 0 i.isLt]
  simpa [List.get_eq_getElem] using hi

theorem all_le_getD_last {l : List Int} (hp : l.Pairwise (· < ·)) :
    ∀ x ∈ l, x ≤ l.getD (l.length - 1) 0 := by
  intro x hx
  obtain ⟨i, hi, rfl⟩ := mem_getD hx
  exact pairwise_getD_le hp (by omega) (by omega)

namespace IndelMap

theorem lens_all_pos (m : IndelMap) (hm : VParts m) :
    ∀ x ∈ m.get_gap_lengths, 0 < x := by
  intro x hx
  obtain ⟨i, hi, rfl⟩ := mem_getD hx
  have hi2 : i < m.cum_gap_lengths.length := by
    have := lens_length m
    omega
  exact lens_getD_pos m hm i hi2

end IndelMap

theorem cumAtSum_eq (m : IndelMap) (hm : VParts m) (sv : Int) :
    cumAtSum m sv = (if ssr m.gap_pos sv = 0 then 0
      else m.cum_gap_lengths.getD (ssr m.gap_pos sv - 1) 0) := by
  unfold cumAtSum
  rw [get_gap_lengths_eq_dfrom]
  have hk : ssr m.gap_pos sv ≤ m.cum_gap_lengths.length := by
    have h1 := ssr_le m.gap_pos sv
    have h2 := hm.hlen
    omega
  rw [sum_take_dfrom 0 _ _ hk]
  rw [sub_zero]

theorem cumAtSum_nonneg (m : IndelMap) (hm : VParts m) (sv : Int) :
    0 ≤ cumAtSum m sv := by
  unfold cumAtSum
  refine List.sum_nonneg ?_
  intro x hx
  exact le_of_lt (IndelMap.lens_all_pos m hm x (List.mem_of_mem_take hx))

/-- characterization of `get_align_index` with `slice_stop=False` at a
non-negative sequence index: it adds the total length of the gap runs whose
insertion point is at or before the index. -/
theorem align_char (m : IndelMap) (hm : VParts m) (sv : Int) (hs : 0 ≤ sv) :
    IndelMap.get_align_index m sv false = .ok (sv + cumAtSum m sv) := by
  have hsv : ¬ sv < 0 := not_lt.mpr hs
  simp only [IndelMap.get_align_index, if_neg hsv]
  by_cases h1 : m.num_gaps = 0 ∨ sv < m.gap_pos.getD 0 0
  · rw [if_pos h1]
    have hssr : ssr m.gap_pos sv = 0 := by
      rcases h1 with h | h
      · have hnil : m.gap_pos = [] := List.length_eq_zero.mp h
        rw [hnil]
        rfl
      · cases hps : m.gap_pos with
        | nil => rfl
        | cons a t =>
          rw [hps] at h
          simp only [List.getD_cons_zero] at h
          simp [ssr, not_le.mpr h]
    rw [cumAtSum_eq m hm, hssr]
    simp
  · rw [if_neg h1]
    push_neg at h1
    obtain ⟨hn0, hge0⟩ := h1
    have hfalse : ¬ ((false = true) ∧ sv ∈ m.gap_pos) := by simp
    rw [if_neg hfalse]
    by_cases h2 : m.gap_pos.getD (m.num_gaps - 1) 0 ≤ sv
    · rw [if_pos h2]
      have hssr : ssr m.gap_pos sv = m.gap_pos.length := by
        refine ssr_eq_length_of_all _ _ ?_
        intro x hx
        exact le_trans (all_le_getD_last hm.hps x hx) h2
      rw [cumAtSum_eq m hm, hssr]
      rw [if_neg (by simpa [IndelMap.num_gaps] using hn0)]
      rfl
    · rw [if_neg h2]
      have hidx_lt : ssl m.gap_pos sv < m.gap_pos.length := by
        rcases lt_or_eq_of_le (ssl_le m.gap_pos sv) with h | h
        · exact h
        · exfalso
          have hlen0 : m.gap_pos.length ≠ 0 := hn0
          have := ssl_lt_elem m.gap_pos sv (m.gap_pos.length - 1) (by omega)
          exact h2 (le_of_lt this)
      by_cases h3 : sv < m.gap_pos.getD (ssl m.gap_pos sv) 0
      · rw [if_pos h3]
        have hssr : ssr m.gap_pos sv = ssl m.gap_pos sv :=
          ssr_eq_ssl_of_gt _ _ h3
        rw [cumAtSum_eq m hm, hssr]
        by_cases h4 : ssl m.gap_pos sv = 0
        · simp [h4]
        · simp [h4]
      · rw [if_neg h3]
        have heq : m.gap_pos.getD (ssl m.gap_pos sv) 0 = sv :=
          le_antisymm (not_lt.mp h3) (ssl_stop _ _ hidx_lt)
        have hssr := ssr_eq_ssl_succ m.gap_pos sv hm.hps hidx_lt heq
        rw [cumAtSum_eq m hm, hssr]
        simp

theorem findIdxInt_getD :
    ∀ {l : List Int}, l.Pairwise (· < ·) →
      ∀ i, i < l.length → findIdxInt (l.getD i 0) l = i := by
  intro l
  induction l with
  | nil => intro _ i hi; simp at hi
  | cons a t ih =>
    intro hp i hi
    cases i with
    | zero => simp [findIdxInt]
    | succ j =>
      have hj : j < t.length := by simpa using hi
      have ha : a < t.getD j 0 :=
        (List.pairwise_cons.mp hp).1 _ (getD_mem t j hj)
      simp only [List.getD_cons_succ, findIdxInt,
        if_neg (show ¬ a = t.getD j 0 by omega)]
      rw [ih (List.pairwise_cons.mp hp).2 j hj]

theorem ssl_getD :
    ∀ {l : List Int}, l.Pairwise (· < ·) →
      ∀ i, i < l.length → ssl l (l.getD i 0) = i := by
  intro l
  induction l with
  | nil => intro _ i hi; simp at hi
  | cons a t ih =>
    intro hp i hi
    cases i with
    | zero => simp [ssl]
    | succ j =>
      have hj : j < t.length := by simpa using hi
      have ha : a < t.getD j 0 :=
        (List.pairwise_cons.mp hp).1 _ (getD_mem t j hj)
      simp only [List.getD_cons_succ, ssl, if_pos ha]
      rw [ih (List.pairwise_cons.mp hp).2 j hj]

theorem get_align_index_isOk (m : IndelMap) (sv : Int) (b : Bool)
    (h : 0 ≤ (if sv < 0 then sv + m.parent_length else sv)) :
    ∃ v, m.get_align_index sv b = .ok v := by
  simp only [IndelMap.get_align_index, if_neg (not_lt.mpr h)]
  split_ifs <;> exact ⟨_, rfl⟩

theorem get_align_index_isError (m : IndelMap) (sv : Int) (b : Bool)
    (h : (if sv < 0 then sv + m.parent_length else sv) < 0) :
    m.get_align_index sv b = .error "negative seq_index beyond limit" := by
  simp only [IndelMap.get_align_index, if_pos h]

/-- C2: at each gap insertion point `gap_pos[i]`, `slice_stop=True` returns the
first alignment coordinate of that gap run (the coordinate before the gap) and
`slice_stop=False` the alignment coordinate after the run; the range error
occurs exactly for `seq_index < -parent_length`. -/
theorem c2_gap_run_boundaries (m : IndelMap) (hv : m.validb = true) :
    (∀ i, i < m.num_gaps →
      m.get_align_index (m.gap_pos.getD i 0) true =
        .ok ((IndelMap.gapStarts m).getD i 0) ∧
      m.get_align_index (m.gap_pos.getD i 0) false =
        .ok ((IndelMap.gapEnds m).getD i 0)) ∧
    (∀ sv b, (∃ e, m.get_align_index sv b = .error e) ↔
      sv < -m.parent_length) := by
  have hm := IndelMap.validb_vparts m hv
  have hng : m.num_gaps = m.gap_pos.length := rfl
  constructor
  · intro i hi
    simp only [IndelMap.num_gaps] at hi
    have hp0 : 0 ≤ m.gap_pos.getD i 0 :=
      (hm.hbnd _ (getD_mem _ i hi)).1
    have hpslt : ¬ m.gap_pos.getD i 0 < 0 := not_lt.mpr hp0
    have hb1 : ¬ (m.num_gaps = 0 ∨ m.gap_pos.getD i 0 < m.gap_pos.getD 0 0) := by
      push_neg
      refine ⟨by omega, ?_⟩
      exact pairwise_getD_le hm.hps (Nat.zero_le i) hi
    have hcsi : i < m.cum_gap_lengths.length := by
      have := hm.hlen
      omega
    constructor
    · simp only [IndelMap.get_align_index, if_neg hpslt, if_neg hb1, true_and]
      rw [if_pos (getD_mem _ i hi)]
      rw [findIdxInt_getD hm.hps i hi]
      rw [IndelMap.gapStarts_getD m hm.hlen i hi]
      cases i with
      | zero => simp
      | succ j =>
        rw [if_pos (Nat.succ_ne_zero j), if_neg (Nat.succ_ne_zero j)]
        exact congrArg Except.ok (by simp only [Nat.add_sub_cancel]; ring)
    · simp only [IndelMap.get_align_index, if_neg hpslt, if_neg hb1,
        Bool.false_eq_true, false_and, if_false]
      rw [IndelMap.gapEnds_getD m hm.hlen i hi]
      by_cases h2 : m.gap_pos.getD (m.num_gaps - 1) 0 ≤ m.gap_pos.getD i 0
      · rw [if_pos h2]
        have hieq : i = m.num_gaps - 1 := by
          by_contra hne
          have hilt : i < m.num_gaps - 1 := by omega
          have hlast : m.num_gaps - 1 < m.gap_pos.length := by omega
          have := pairwise_getD_lt hm.hps hilt hlast
          omega
        rw [hieq]
      · rw [if_neg h2]
        rw [ssl_getD hm.hps i hi]
        rw [if_neg (lt_irrefl _)]
  · intro sv b
    constructor
    · rintro ⟨e, he⟩
      by_contra hc
      push_neg at hc
      have h0 : 0 ≤ (if sv < 0 then sv + m.parent_length else sv) := by
        split_ifs with h <;> omega
      obtain ⟨v, hvv⟩ := get_align_index_isOk m sv b h0
      rw [hvv] at he
      simp at he
    · intro hlt
      have hpl := hm.hpl
      have h0 : (if sv < 0 then sv + m.parent_length else sv) < 0 := by
        split_ifs with h <;> omega
      exact ⟨_, get_align_index_isError m sv b h0⟩

/-- witness for `c2_gap_run_boundaries` at the map with gaps `{2:1, 5:2}`
over a parent of length 10. -/
theorem c2_gap_run_boundaries_witness :
    IndelMap.get_align_index ⟨[2, 5], [1, 3], false, 10⟩ 5 true = .ok 6 ∧
    IndelMap.get_align_index ⟨[2, 5], [1, 3], false, 10⟩ 5 false = .ok 8 ∧
    ((∃ e, IndelMap.get_align_index ⟨[2, 5], [1, 3], false, 10⟩ (-11) false =
      .error e) ↔ (-11 : Int) < -(10 : Int)) := by
  have h := c2_gap_run_boundaries ⟨[2, 5], [1, 3], false, 10⟩ (by decide)
  exact ⟨(h.1 1 (by decide)).1, (h.1 1 (by decide)).2, h.2 (-11) false⟩

/-- C3 counterexample: on the map built from gaps `{2:1, 5:2}` over sequence
length 10, `get_align_index(5)` with the default `slice_stop` is 8, not 6
(6 is the `slice_stop=True` answer). -/
theorem c3_counterexample :
    ¬ ((gap_coords_to_map [(2, 1), (5, 2)] 10).get_align_index 5 false =
      Except.ok 6) := by
  intro h
  rw [show (gap_coords_to_map [(2, 1), (5, 2)] 10).get_align_index 5 false =
    Except.ok 8 from rfl] at h
  exact absurd (Except.ok.inj h) (by decide)

/-- C3 amended: for the CompactGapMap built from gap coordinates `{2:1, 5:2}`
over an ungapped sequence of length 10, `get_align_index(5)` with the default
`slice_stop` returns 8 (the alignment coordinate after the gap run inserted
at position 5). -/
theorem c3_amended :
    (gap_coords_to_map [(2, 1), (5, 2)] 10).get_align_index 5 false =
      Except.ok 8 := rfl

/-- C4: the length of an `IndelMap` is `parent_length` plus the last entry of
`cum_gap_lengths` (0 with no gaps); in particular the map with
`gap_pos=[0,4]`, `cum_gap_lengths=[2,5]`, `parent_length=4` has length 9. -/
theorem c4_length_law :
    (∀ m : IndelMap, m.validb = true → IndelMap.lenIM m = m.parent_length +
      (if m.num_gaps = 0 then 0
       else m.cum_gap_lengths.getD (m.num_gaps - 1) 0)) ∧
    IndelMap.lenIM ⟨[0, 4], [2, 5], false, 4⟩ = 9 := by
  constructor
  · intro m _
    unfold IndelMap.lenIM
    split_ifs with h
    · ring
    · rfl
  · rfl

/-- witness for `c4_length_law` at a concrete valid map. -/
theorem c4_length_law_witness :
    IndelMap.lenIM ⟨[0, 4], [2, 5], false, 4⟩ =
      (⟨[0, 4], [2, 5], false, 4⟩ : IndelMap).parent_length +
      (if (⟨[0, 4], [2, 5], false, 4⟩ : IndelMap).num_gaps = 0 then 0
       else (⟨[0, 4], [2, 5], false, 4⟩ : IndelMap).cum_gap_lengths.getD
         ((⟨[0, 4], [2, 5], false, 4⟩ : IndelMap).num_gaps - 1) 0) :=
  c4_length_law.1 ⟨[0, 4], [2, 5], false, 4⟩ (by decide)

/-- C8 counterexample: merging the maps with gap coordinates `{5:1, 6:3}` and
`{2:1, 5:3}` gives insertion points `[2,5,6]` but gap lengths `[1,4,3]` — the
point 5 is coincident, so its lengths add (1+3), contradicting the claimed
lengths `[1,3,3]`. -/
theorem c8_counterexample :
    ((gap_coords_to_map [(5, 1), (6, 3)] 10).merge_maps
      (gap_coords_to_map [(2, 1), (5, 3)] 10)).gap_pos = [2, 5, 6] ∧
    ((gap_coords_to_map [(5, 1), (6, 3)] 10).merge_maps
      (gap_coords_to_map [(2, 1), (5, 3)] 10)).get_gap_lengths = [1, 4, 3] ∧
    ([1, 4, 3] : List Int) ≠ [1, 3, 3] := ⟨rfl, rfl, by decide⟩

/-- C8 amended: merging `{5:1, 6:3}` with `{2:1, 5:3}` over the same parent
yields insertion points 2, 5, 6 with gap lengths 1, 4, 3 respectively
(lengths add at the coincident insertion point 5). -/
theorem c8_amended :
    ((gap_coords_to_map [(5, 1), (6, 3)] 10).merge_maps
      (gap_coords_to_map [(2, 1), (5, 3)] 10)).gap_pos = [2, 5, 6] ∧
    ((gap_coords_to_map [(5, 1), (6, 3)] 10).merge_maps
      (gap_coords_to_map [(2, 1), (5, 3)] 10)).get_gap_lengths = [1, 4, 3] :=
  ⟨rfl, rfl⟩

theorem dfrom_append (p : Int) (xs ys : List Int) :
    dfrom p (xs ++ ys) = dfrom p xs ++
      dfrom (if xs.length = 0 then p else xs.getD (xs.length - 1) 0) ys := by
  induction xs generalizing p with
  | nil => simp [dfrom]
  | cons c t ih =>
    simp only [List.cons_append, dfrom, List.length_cons, List.append_eq]
    rw [ih c]
    congr 2
    cases ht : t with
    | nil => simp
    | cons d t2 =>
      simp only [List.length_cons, if_neg (Nat.succ_ne_zero t2.length),
        Nat.add_sub_cancel, List.getD_cons_succ]
      rw [if_neg (show ¬ (t2.length + 1 + 1 = 0) by omega)]

theorem add_get_gap_lengths (a b : IndelMap) (hma : VParts a) :
    (IndelMap.add a b).get_gap_lengths =
      a.get_gap_lengths ++ b.get_gap_lengths := by
  rw [get_gap_lengths_eq_dfrom, get_gap_lengths_eq_dfrom,
    get_gap_lengths_eq_dfrom]
  show dfrom 0 (a.cum_gap_lengths ++ b.cum_gap_lengths.map
    ((if a.num_gaps = 0 then 0
      else a.cum_gap_lengths.getD (a.num_gaps - 1) 0) + ·)) = _
  rw [dfrom_append]
  congr 1
  have hA : (if a.cum_gap_lengths.length = 0 then (0 : Int)
      else a.cum_gap_lengths.getD (a.cum_gap_lengths.length - 1) 0) =
      (if a.num_gaps = 0 then 0
      else a.cum_gap_lengths.getD (a.num_gaps - 1) 0) := by
    have := hma.hlen
    simp only [IndelMap.num_gaps]
    rw [this]
  rw [hA]
  have := dfrom_map_add (if a.num_gaps = 0 then (0 : Int)
    else a.cum_gap_lengths.getD (a.num_gaps - 1) 0) b.cum_gap_lengths 0
  rw [show (if a.num_gaps = 0 then (0 : Int)
    else a.cum_gap_lengths.getD (a.num_gaps - 1) 0) + 0 =
    (if a.num_gaps = 0 then (0 : Int)
    else a.cum_gap_lengths.getD (a.num_gaps - 1) 0) from by ring] at this
  exact this

theorem cumAtSum_add (a b : IndelMap) (hma : VParts a) (k : Int)
    (hk0 : 0 ≤ k) :
    cumAtSum (IndelMap.add a b) (a.parent_length + k) =
      (if a.num_gaps = 0 then 0
       else a.cum_gap_lengths.getD (a.num_gaps - 1) 0) + cumAtSum b k := by
  unfold cumAtSum
  have hall : ∀ x ∈ a.gap_pos, x ≤ a.parent_length + k := by
    intro x hx
    have := (hma.hbnd x hx).2
    omega
  have hssr : ssr (IndelMap.add a b).gap_pos (a.parent_length + k) =
      a.gap_pos.length + ssr b.gap_pos k := by
    show ssr (a.gap_pos ++ b.gap_pos.map (a.parent_length + ·)) _ = _
    rw [ssr_append_all _ _ _ hall, ssr_map_add]
  rw [hssr, add_get_gap_lengths a b hma]
  have hlena : a.gap_pos.length = a.get_gap_lengths.length := by
    rw [IndelMap.lens_length]
    exact hma.hlen
  rw [hlena, List.take_append, List.sum_append]
  congr 1
  rw [← List.take_length a.get_gap_lengths, get_gap_lengths_eq_dfrom]
  rw [show (dfrom 0 a.cum_gap_lengths).length = a.cum_gap_lengths.length from
    dfrom_length 0 _]
  rw [sum_take_dfrom 0 _ _ (le_refl _), sub_zero]
  have := hma.hlen
  simp only [IndelMap.num_gaps]
  rw [this]

/-- C6 counterexample: for the valid maps `a = ([2],[1]) over parent 2`
(trailing gap) and `b = ([0,1],[1,2]) over parent 3` (leading gap), `a + b`
duplicates the insertion point 2 and the concatenation law fails at `k = 0`:
the left side is 3 while `len(a) + seq_to_align(b, 0) = 4`. -/
theorem c6_counterexample :
    (⟨[2], [1], false, 2⟩ : IndelMap).validb = true ∧
    (⟨[0, 1], [1, 2], false, 3⟩ : IndelMap).validb = true ∧
    IndelMap.get_align_index
      (IndelMap.add ⟨[2], [1], false, 2⟩ ⟨[0, 1], [1, 2], false, 3⟩)
      ((⟨[2], [1], false, 2⟩ : IndelMap).parent_length + 0) false =
      .ok 3 ∧
    Except.map (fun x => IndelMap.lenIM ⟨[2], [1], false, 2⟩ + x)
      (IndelMap.get_align_index (⟨[0, 1], [1, 2], false, 3⟩ : IndelMap) 0
        false) = .ok 4 ∧
    (Except.ok 3 : Except String Int) ≠ Except.ok 4 := by
  refine ⟨by decide, by decide, rfl, rfl, ?_⟩
  intro h
  exact absurd (Except.ok.inj h) (by decide)

/-- C6 amended: the concatenation law holds whenever the concatenated map is
itself valid, i.e. unless `a` ends with a gap at `a.parent_length` and `b`
begins with a gap at 0 (in which case `a + b` duplicates an insertion point):
for valid `a`, `b` with `a + b` valid and `0 ≤ k < b.parent_length`,
`seq_to_align(a + b, a.parent_length + k) = len(a) + seq_to_align(b, k)`. -/
theorem c6_amended (a b : IndelMap) (ha : a.validb = true)
    (hb : b.validb = true) (hab : (IndelMap.add a b).validb = true) (k : Int)
    (hk0 : 0 ≤ k) (hk1 : k < b.parent_length) :
    IndelMap.get_align_index (IndelMap.add a b) (a.parent_length + k) false =
      Except.map (fun x => IndelMap.lenIM a + x)
        (IndelMap.get_align_index b k false) := by
  have hma := IndelMap.validb_vparts a ha
  have hmb := IndelMap.validb_vparts b hb
  have hmab := IndelMap.validb_vparts _ hab
  rw [align_char _ hmab _ (by have := hma.hpl; omega)]
  rw [align_char b hmb k hk0]
  show _ = Except.ok (IndelMap.lenIM a + (k + cumAtSum b k))
  rw [cumAtSum_add a b hma k hk0]
  have hlen : IndelMap.lenIM a = a.parent_length +
      (if a.num_gaps = 0 then 0
       else a.cum_gap_lengths.getD (a.num_gaps - 1) 0) := by
    unfold IndelMap.lenIM
    split_ifs <;> ring
  rw [hlen]
  exact congrArg Except.ok (by ring)

/-- witness for `c6_amended` at concrete valid maps with a valid sum. -/
theorem c6_amended_witness :
    IndelMap.get_align_index
      (IndelMap.add ⟨[1], [2], false, 3⟩ ⟨[1], [1], false, 2⟩)
      ((⟨[1], [2], false, 3⟩ : IndelMap).parent_length + 1) false =
      Except.map (fun x => IndelMap.lenIM ⟨[1], [2], false, 3⟩ + x)
        (IndelMap.get_align_index (⟨[1], [1], false, 2⟩ : IndelMap) 1 false) :=
  c6_amended ⟨[1], [2], false, 3⟩ ⟨[1], [1], false, 2⟩ (by decide) (by decide)
    (by decide) 1 (by decide) (by decide)

/-- C7: serialising an `IndelMap` to its rich dictionary and deserialising it
reproduces the map (in particular identical `gap_pos`, `cum_gap_lengths` and
`parent_length`). -/
theorem c7_rich_dict_round_trip (m : IndelMap) (hv : m.validb = true) :
    IndelMap.from_rich_dict (IndelMap.to_rich_dict m) = .ok m := by
  have hm := IndelMap.validb_vparts m hv
  unfold IndelMap.from_rich_dict IndelMap.to_rich_dict
  split_ifs with h1 h2 h3
  · exact absurd rfl h1
  · simp only at h2
    exact absurd hm.hlen h2
  · simp only at h3
    obtain ⟨hne, hlt⟩ := h3
    have hmem : m.gap_pos.getD (m.gap_pos.length - 1) 0 ∈ m.gap_pos :=
      getD_mem _ _ (by omega)
    have := (hm.hbnd _ hmem).2
    omega
  · rfl

/-- witness for `c7_rich_dict_round_trip` at a concrete valid map. -/
theorem c7_rich_dict_round_trip_witness :
    IndelMap.from_rich_dict
      (IndelMap.to_rich_dict ⟨[2, 5], [1, 3], false, 10⟩) =
      .ok ⟨[2, 5], [1, 3], false, 10⟩ :=
  c7_rich_dict_round_trip ⟨[2, 5], [1, 3], false, 10⟩ (by decide)

/-- C10: `nucleic_reversed` is an involution on the gap data — applying it
twice reproduces `gap_pos`, `cum_gap_lengths` and `parent_length`. -/
theorem c10_nucleic_reversed_involution (m : IndelMap) (hv : m.validb = true) :
    m.nucleic_reversed.nucleic_reversed.gap_pos = m.gap_pos ∧
    m.nucleic_reversed.nucleic_reversed.cum_gap_lengths =
      m.cum_gap_lengths ∧
    m.nucleic_reversed.nucleic_reversed.parent_length = m.parent_length := by
  have hm := IndelMap.validb_vparts m hv
  have hnr : ∀ w : IndelMap, w.gap_pos.length ≠ 0 → w.nucleic_reversed =
      ⟨(w.gap_pos.map (w.parent_length - ·)).reverse,
        cumsum w.get_gap_lengths.reverse, false, w.parent_length⟩ := by
    intro w hw
    simp only [IndelMap.nucleic_reversed, IndelMap.ofGapLengths, if_pos hw]
  by_cases hps : m.gap_pos = []
  · have hcs : m.cum_gap_lengths = [] := by
      have := hm.hlen
      rw [hps] at this
      exact List.length_eq_zero.mp this.symm
    have hlens : m.get_gap_lengths = [] := by
      rw [get_gap_lengths_eq_dfrom, hcs]
      rfl
    have h1 : m.nucleic_reversed = ⟨[], [], false, m.parent_length⟩ := by
      simp [IndelMap.nucleic_reversed, IndelMap.ofGapLengths, hps, hlens,
        cumsum]
    have h2 : m.nucleic_reversed.nucleic_reversed =
        ⟨[], [], false, m.parent_length⟩ := by
      rw [h1]
      simp [IndelMap.nucleic_reversed, IndelMap.ofGapLengths,
        IndelMap.get_gap_lengths, cumsum]
    rw [h2, hps, hcs]
    exact ⟨rfl, rfl, rfl⟩
  · have hlen0 : m.gap_pos.length ≠ 0 :=
      fun h => hps (List.length_eq_zero.mp h)
    have h1 := hnr m hlen0
    have h2 : m.nucleic_reversed.gap_pos.length ≠ 0 := by
      rw [h1]
      simpa using hlen0
    have hlens2 : m.nucleic_reversed.get_gap_lengths =
        m.get_gap_lengths.reverse := by
      rw [get_gap_lengths_eq_dfrom, h1]
      exact dfrom_cumsum _
    have h3 := hnr m.nucleic_reversed h2
    rw [h3]
    dsimp only
    refine ⟨?_, ?_, ?_⟩
    · rw [h1]
      dsimp only
      simp only [List.map_reverse, List.reverse_reverse, List.map_map]
      rw [show ((fun x => m.parent_length - x) ∘
          (fun x => m.parent_length - x)) = (id : Int → Int) from
        funext (fun x => by
          simp only [Function.comp, id]
          ring)]
      exact List.map_id _
    · rw [hlens2, List.reverse_reverse, get_gap_lengths_eq_dfrom]
      exact cumsum_dfrom_zero _
    · rw [h1]

/-- witness for `c10_nucleic_reversed_involution` at a concrete valid map. -/
theorem c10_nucleic_reversed_involution_witness :
    (IndelMap.nucleic_reversed (IndelMap.nucleic_reversed
      ⟨[2, 5], [1, 3], false, 10⟩)).gap_pos = [2, 5] ∧
    (IndelMap.nucleic_reversed (IndelMap.nucleic_reversed
      ⟨[2, 5], [1, 3], false, 10⟩)).cum_gap_lengths = [1, 3] ∧
    (IndelMap.nucleic_reversed (IndelMap.nucleic_reversed
      ⟨[2, 5], [1, 3], false, 10⟩)).parent_length = 10 :=
  c10_nucleic_reversed_involution ⟨[2, 5], [1, 3], false, 10⟩ (by decide)

theorem clampTerm_of_le_starts (m : IndelMap) (a : Int) (i : Nat)
    (h : a ≤ (IndelMap.gapStarts m).getD i 0) : clampTerm m a i = 0 := by
  unfold clampTerm
  have h1 : a - (IndelMap.gapStarts m).getD i 0 ≤ 0 := by omega
  have h2 : min (m.get_gap_lengths.getD i 0)
      (a - (IndelMap.gapStarts m).getD i 0) ≤ 0 :=
    le_trans (min_le_right _ _) h1
  exact max_eq_left h2

theorem clampTerm_of_ends_le (m : IndelMap) (hm : VParts m) (a : Int) (i : Nat)
    (hi : i < m.num_gaps) (h : (IndelMap.gapEnds m).getD i 0 ≤ a) :
    clampTerm m a i = m.get_gap_lengths.getD i 0 := by
  unfold clampTerm
  have hse := IndelMap.starts_add_lens m hm i hi
  have hpos := IndelMap.lens_getD_pos m hm i (by
    have := hm.hlen
    simp only [IndelMap.num_gaps] at hi
    omega)
  rw [min_eq_left (by omega), max_eq_right (by omega)]

theorem clampTerm_within (m : IndelMap) (hm : VParts m) (a : Int) (i : Nat)
    (hi : i < m.num_gaps) (h1 : (IndelMap.gapStarts m).getD i 0 ≤ a)
    (h2 : a ≤ (IndelMap.gapEnds m).getD i 0) :
    clampTerm m a i = a - (IndelMap.gapStarts m).getD i 0 := by
  unfold clampTerm
  have hse := IndelMap.starts_add_lens m hm i hi
  rw [min_eq_right (by omega), max_eq_right (by omega)]

theorem sum_range_lens (m : IndelMap) (hm : VParts m) (k : Nat)
    (hk : k ≤ m.num_gaps) :
    ∑ i in Finset.range k, m.get_gap_lengths.getD i 0 =
      (if k = 0 then 0 else m.cum_gap_lengths.getD (k - 1) 0) := by
  have hcsk : k ≤ m.cum_gap_lengths.length := by
    have := hm.hlen
    simp only [IndelMap.num_gaps] at hk
    omega
  rw [← take_sum_getD _ k (by rw [IndelMap.lens_length]; exact hcsk)]
  rw [get_gap_lengths_eq_dfrom, sum_take_dfrom 0 _ _ hcsk, sub_zero]

/-- evaluation of `gamma` when position `a` is between gap run `k-1` and gap
run `k` (or at a gap end boundary). -/
theorem gamma_eval (m : IndelMap) (hm : VParts m) (a : Int) (k : Nat)
    (hk : k ≤ m.num_gaps)
    (h1 : ∀ i, i < k → (IndelMap.gapEnds m).getD i 0 ≤ a)
    (h2 : ∀ i, k ≤ i → i < m.num_gaps → a ≤ (IndelMap.gapStarts m).getD i 0) :
    gamma m a = (if k = 0 then 0 else m.cum_gap_lengths.getD (k - 1) 0) := by
  unfold gamma
  have hsplit : ∑ i in Finset.range m.num_gaps, clampTerm m a i =
      (∑ i in Finset.range k, clampTerm m a i) +
      ∑ i in Finset.Ico k m.num_gaps, clampTerm m a i := by
    simp only [Finset.range_eq_Ico]
    rw [Finset.sum_Ico_consecutive _ (Nat.zero_le k) hk]
  rw [hsplit]
  have hA : ∑ i in Finset.range k, clampTerm m a i =
      ∑ i in Finset.range k, m.get_gap_lengths.getD i 0 :=
    Finset.sum_congr rfl (fun i hi =>
      clampTerm_of_ends_le m hm a i
        (lt_of_lt_of_le (Finset.mem_range.mp hi) hk)
        (h1 i (Finset.mem_range.mp hi)))
  have hB : ∑ i in Finset.Ico k m.num_gaps, clampTerm m a i = 0 :=
    Finset.sum_eq_zero (fun i hi =>
      clampTerm_of_le_starts m a i
        (h2 i (Finset.mem_Ico.mp hi).1 (Finset.mem_Ico.mp hi).2))
  rw [hA, hB, sum_range_lens m hm k hk, add_zero]

/-- evaluation of `gamma` when position `a` lies in gap run `k`. -/
theorem gamma_eval_within (m : IndelMap) (hm : VParts m) (a : Int) (k : Nat)
    (hk : k < m.num_gaps)
    (h1 : ∀ i, i < k → (IndelMap.gapEnds m).getD i 0 ≤ a)
    (h2 : (IndelMap.gapStarts m).getD k 0 ≤ a)
    (h3 : a ≤ (IndelMap.gapEnds m).getD k 0)
    (h4 : ∀ i, k < i → i < m.num_gaps → a ≤ (IndelMap.gapStarts m).getD i 0) :
    gamma m a = (if k = 0 then 0 else m.cum_gap_lengths.getD (k - 1) 0) +
      (a - (IndelMap.gapStarts m).getD k 0) := by
  unfold gamma
  have hsplit : ∑ i in Finset.range m.num_gaps, clampTerm m a i =
      (∑ i in Finset.range k, clampTerm m a i) +
      ∑ i in Finset.Ico k m.num_gaps, clampTerm m a i := by
    simp only [Finset.range_eq_Ico]
    rw [Finset.sum_Ico_consecutive _ (Nat.zero_le k) (le_of_lt hk)]
  rw [hsplit]
  have hbot : ∑ i in Finset.Ico k m.num_gaps, clampTerm m a i =
      clampTerm m a k + ∑ i in Finset.Ico (k + 1) m.num_gaps, clampTerm m a i :=
    Finset.sum_eq_sum_Ico_succ_bot hk _
  rw [hbot]
  have hA : ∑ i in Finset.range k, clampTerm m a i =
      ∑ i in Finset.range k, m.get_gap_lengths.getD i 0 :=
    Finset.sum_congr rfl (fun i hi =>
      clampTerm_of_ends_le m hm a i
        (lt_trans (Finset.mem_range.mp hi) hk)
        (h1 i (Finset.mem_range.mp hi)))
  have hB : ∑ i in Finset.Ico (k + 1) m.num_gaps, clampTerm m a i = 0 :=
    Finset.sum_eq_zero (fun i hi =>
      clampTerm_of_le_starts m a i
        (h4 i (Finset.mem_Ico.mp hi).1 (Finset.mem_Ico.mp hi).2))
  rw [hA, hB, clampTerm_within m hm a k hk h2 h3,
    sum_range_lens m hm k (le_of_lt hk), add_zero]

/-- characterization of `get_seq_index` at a non-negative alignment index:
it subtracts the number of gap alignment positions before the index (an
index inside a gap run collapses to the run insertion point). -/
theorem seq_char (m : IndelMap) (hm : VParts m) (a : Int) (ha : 0 ≤ a) :
    m.get_seq_index a = .ok (some (a - gamma m a)) := by
  have hng : m.num_gaps = m.gap_pos.length := rfl
  simp only [IndelMap.get_seq_index, if_neg (not_lt.mpr ha)]
  by_cases h1 : m.num_gaps = 0 ∨ a < m.gap_pos.getD 0 0
  · rw [if_pos h1]
    have hg : gamma m a = 0 := by
      rcases h1 with h | h
      · unfold gamma
        rw [h]
        simp
      · rw [gamma_eval m hm a 0 (Nat.zero_le _)
          (fun i hi => absurd hi (Nat.not_lt_zero i)) ?_]
        · simp
        · intro i _ hi
          have hs0 : (IndelMap.gapStarts m).getD 0 0 = m.gap_pos.getD 0 0 := by
            rw [IndelMap.gapStarts_getD m hm.hlen 0 (by omega)]
            simp
          have := IndelMap.starts_mono m hm (Nat.zero_le i) hi
          omega
    rw [hg]
    simp
  · rw [if_neg h1]
    push_neg at h1
    obtain ⟨hn0, hain⟩ := h1
    by_cases h2 : (IndelMap.gapEnds m).getD (m.num_gaps - 1) 0 ≤ a
    · rw [if_pos h2]
      have hg : gamma m a = m.cum_gap_lengths.getD (m.num_gaps - 1) 0 := by
        rw [gamma_eval m hm a m.num_gaps (le_refl _) ?_ ?_]
        · rw [if_neg hn0]
        · intro i hi
          exact le_trans (IndelMap.ends_mono m hm (by omega) (by omega)) h2
        · intro i hi hi2
          omega
      rw [hg]
    · rw [if_neg h2]
      have hgelen : (IndelMap.gapEnds m).length = m.num_gaps :=
        IndelMap.gapEnds_length m hm.hlen
      have hidx : ssl (IndelMap.gapEnds m) a < m.num_gaps := by
        rcases lt_or_eq_of_le (ssl_le (IndelMap.gapEnds m) a) with h | h
        · omega
        · exfalso
          have := ssl_lt_elem (IndelMap.gapEnds m) a (m.num_gaps - 1)
            (by omega)
          omega
      have hKends : ∀ i, i < ssl (IndelMap.gapEnds m) a →
          (IndelMap.gapEnds m).getD i 0 ≤ a :=
        fun i hi => le_of_lt (ssl_lt_elem _ a i hi)
      have hKstop : a ≤ (IndelMap.gapEnds m).getD (ssl (IndelMap.gapEnds m) a) 0 :=
        ssl_stop _ a (by omega)
      by_cases h3 : a < (IndelMap.gapStarts m).getD (ssl (IndelMap.gapEnds m) a) 0
      · rw [if_pos h3]
        have hK1 : ssl (IndelMap.gapEnds m) a ≠ 0 := by
          intro h0
          rw [h0] at h3
          have hs0 : (IndelMap.gapStarts m).getD 0 0 = m.gap_pos.getD 0 0 := by
            rw [IndelMap.gapStarts_getD m hm.hlen 0 (by omega)]
            simp
          omega
        have hg : gamma m a =
            m.cum_gap_lengths.getD (ssl (IndelMap.gapEnds m) a - 1) 0 := by
          rw [gamma_eval m hm a (ssl (IndelMap.gapEnds m) a) (by omega)
            hKends ?_]
          · rw [if_neg hK1]
          · intro i hKi hin
            have := IndelMap.starts_mono m hm hKi hin
            omega
        rw [hg]
        have hpy : pyGetD m.cum_gap_lengths
            ((ssl (IndelMap.gapEnds m) a : Int) - 1) =
            m.cum_gap_lengths.getD (ssl (IndelMap.gapEnds m) a - 1) 0 := by
          unfold pyGetD
          rw [if_neg (by omega : ¬ ((ssl (IndelMap.gapEnds m) a : Int) - 1 < 0))]
          congr 1
          omega
        rw [hpy]
      · rw [if_neg h3]
        push_neg at h3
        by_cases h4 : a = (IndelMap.gapEnds m).getD (ssl (IndelMap.gapEnds m) a) 0
        · rw [if_pos h4]
          have hg : gamma m a =
              m.cum_gap_lengths.getD (ssl (IndelMap.gapEnds m) a) 0 := by
            rw [gamma_eval m hm a (ssl (IndelMap.gapEnds m) a + 1) (by omega)
              ?_ ?_]
            · rw [if_neg (Nat.succ_ne_zero _), Nat.add_sub_cancel]
            · intro i hi
              rcases Nat.lt_succ_iff_lt_or_eq.mp hi with h | h
              · exact hKends i h
              · subst h
                omega
            · intro i hKi hin
              have := IndelMap.ends_lt_starts m hm
                (show ssl (IndelMap.gapEnds m) a < i by omega) hin
              omega
          rw [hg]
        · rw [if_neg h4]
          rw [if_pos ⟨h3, lt_of_le_of_ne hKstop h4⟩]
          have hg : gamma m a =
              (if ssl (IndelMap.gapEnds m) a = 0 then 0
               else m.cum_gap_lengths.getD (ssl (IndelMap.gapEnds m) a - 1) 0) +
              (a - (IndelMap.gapStarts m).getD (ssl (IndelMap.gapEnds m) a) 0) := by
            refine gamma_eval_within m hm a (ssl (IndelMap.gapEnds m) a) hidx
              hKends h3 hKstop ?_
            intro i hKi hin
            have := IndelMap.ends_lt_starts m hm hKi hin
            omega
          rw [hg]
          refine congrArg Except.ok (congrArg some ?_)
          rw [IndelMap.gapStarts_getD m hm.hlen _ hidx]
          split_ifs <;> ring

/-- C1: the inverse law — for `0 ≤ s < parent_length`,
`get_seq_index (get_align_index s)` returns `s` (default `slice_stop`). -/
theorem c1_inverse_law (m : IndelMap) (hv : m.validb = true) (s : Int)
    (h0 : 0 ≤ s) (h1 : s < m.parent_length) :
    (m.get_align_index s false).bind (fun a => m.get_seq_index a) =
      .ok (some s) := by
  have hm := IndelMap.validb_vparts m hv
  have hng : m.num_gaps = m.gap_pos.length := rfl
  have hcslen : m.cum_gap_lengths.length = m.num_gaps := by
    have := hm.hlen
    omega
  rw [align_char m hm s h0]
  show m.get_seq_index (s + cumAtSum m s) = .ok (some s)
  rw [seq_char m hm _ (by have := cumAtSum_nonneg m hm s; omega)]
  have hk : ssr m.gap_pos s ≤ m.num_gaps := by
    have := ssr_le m.gap_pos s
    omega
  have hh1 : ∀ i, i < ssr m.gap_pos s →
      (IndelMap.gapEnds m).getD i 0 ≤ s + cumAtSum m s := by
    intro i hi
    have hk0 : ssr m.gap_pos s ≠ 0 := by omega
    rw [IndelMap.gapEnds_getD m hm.hlen i (by omega)]
    have hps := ssr_elem m.gap_pos s i hi
    have hcs : m.cum_gap_lengths.getD i 0 ≤
        m.cum_gap_lengths.getD (ssr m.gap_pos s - 1) 0 :=
      pairwise_getD_le hm.hcs (by omega) (by omega)
    rw [cumAtSum_eq m hm, if_neg hk0]
    omega
  have hh2 : ∀ i, ssr m.gap_pos s ≤ i → i < m.num_gaps →
      s + cumAtSum m s ≤ (IndelMap.gapStarts m).getD i 0 := by
    intro i hki hin
    rw [IndelMap.gapStarts_getD m hm.hlen i hin]
    rw [cumAtSum_eq m hm]
    have hpsk : s < m.gap_pos.getD (ssr m.gap_pos s) 0 :=
      ssr_stop m.gap_pos s (by omega)
    have hpsi : m.gap_pos.getD (ssr m.gap_pos s) 0 ≤ m.gap_pos.getD i 0 :=
      pairwise_getD_le hm.hps hki hin
    by_cases hk0 : ssr m.gap_pos s = 0
    · rw [if_pos hk0]
      rw [hk0] at hpsk hpsi
      split_ifs with hi0
      · omega
      · have hcsi : 0 < m.cum_gap_lengths.getD (i - 1) 0 :=
          hm.hpos _ (getD_mem _ (i - 1) (by omega))
        omega
    · rw [if_neg hk0, if_neg (show ¬ (i = 0) by omega)]
      have hcs : m.cum_gap_lengths.getD (ssr m.gap_pos s - 1) 0 ≤
          m.cum_gap_lengths.getD (i - 1) 0 :=
        pairwise_getD_le hm.hcs (by omega) (by omega)
      omega
  have hgam := gamma_eval m hm (s + cumAtSum m s) (ssr m.gap_pos s) hk hh1 hh2
  refine congrArg Except.ok (congrArg some ?_)
  rw [hgam, ← cumAtSum_eq m hm s]
  ring

/-- witness for `c1_inverse_law` at a concrete valid map and index. -/
theorem c1_inverse_law_witness :
    (IndelMap.get_align_index ⟨[2, 5], [1, 3], false, 10⟩ 5 false).bind
      (fun a => IndelMap.get_seq_index ⟨[2, 5], [1, 3], false, 10⟩ a) =
      .ok (some 5) :=
  c1_inverse_law ⟨[2, 5], [1, 3], false, 10⟩ (by decide) 5 (by decide)
    (by decide)

theorem exceptOk_map {ε α β : Type} (f : α → β) (x : Except ε α) :
    exceptOk (x.map f) = exceptOk x := by
  cases x <;> rfl

theorem invFold_ok_cons (pl ls s e cs ce : Int)
    (rest : List (Int × Int × Int × Int)) :
    exceptOk (FeatureMap.invFold pl ls ((s, e, cs, ce) :: rest)) =
      (decide (ls ≤ s) && exceptOk (FeatureMap.invFold pl e rest)) := by
  simp only [FeatureMap.invFold]
  by_cases h1 : ls < s
  · rw [if_pos h1, exceptOk_map, decide_eq_true (le_of_lt h1), Bool.true_and]
  · by_cases h2 : s < ls
    · rw [if_neg h1, if_pos h2, decide_eq_false (not_le.mpr h2),
        Bool.false_and]
      rfl
    · rw [if_neg h1, if_neg h2, exceptOk_map,
        decide_eq_true (by omega : ls ≤ s), Bool.true_and]

theorem invFold_ok_aux (pl : Int) :
    ∀ (l : List (Int × Int × Int × Int)) (prev : Int × Int × Int × Int),
      exceptOk (FeatureMap.invFold pl prev.2.1 l) =
        !FeatureMap.overlapChk (prev :: l) := by
  intro l
  induction l with
  | nil => intro prev; rfl
  | cons b rest ih =>
    intro prev
    obtain ⟨s, e, cs, ce⟩ := b
    rw [invFold_ok_cons]
    have := ih ⟨s, e, cs, ce⟩
    simp only at this
    rw [this]
    obtain ⟨ps, pe, pcs, pce⟩ := prev
    simp only [FeatureMap.overlapChk, Bool.not_or]
    congr 1
    by_cases h : pe ≤ s
    · rw [decide_eq_true h, decide_eq_false (not_lt.mpr h)]
      rfl
    · rw [decide_eq_false h, decide_eq_true (not_le.mp h)]
      rfl

theorem mem_insertLex4 {x y : Int × Int × Int × Int}
    {l : List (Int × Int × Int × Int)} :
    x ∈ FeatureMap.insertLex4 y l ↔ x = y ∨ x ∈ l := by
  induction l with
  | nil => simp [FeatureMap.insertLex4]
  | cons a t ih =>
    simp only [FeatureMap.insertLex4]
    split_ifs with h
    · simp [List.mem_cons]
    · simp only [List.mem_cons, ih]
      tauto

theorem mem_sortLex4 {x : Int × Int × Int × Int}
    {l : List (Int × Int × Int × Int)} :
    x ∈ FeatureMap.sortLex4 l ↔ x ∈ l := by
  induction l with
  | nil => simp [FeatureMap.sortLex4]
  | cons a t ih =>
    show x ∈ FeatureMap.insertLex4 a (FeatureMap.sortLex4 t) ↔ _
    rw [mem_insertLex4]
    simp [ih]

theorem tempGo_fst_nonneg :
    ∀ (spans : List MSpan), spans.all FeatureMap.spanOkb = true →
    ∀ (cum : Int) (x : Int × Int × Int × Int),
      x ∈ FeatureMap.tempGo cum spans → 0 ≤ x.1 := by
  intro spans
  induction spans with
  | nil => intro _ cum x hx; simp [FeatureMap.tempGo] at hx
  | cons sp rest ih =>
    intro hall cum x hx
    rw [List.all_cons, Bool.and_eq_true] at hall
    cases sp with
    | lost n =>
      exact ih hall.2 _ x (by simpa [FeatureMap.tempGo] using hx)
    | span s e rev =>
      have hs : 0 ≤ s := by
        have h1 := hall.1
        simp only [FeatureMap.spanOkb, Bool.and_eq_true, decide_eq_true_eq]
          at h1
        exact h1.1
      simp only [FeatureMap.tempGo] at hx
      rcases List.mem_cons.mp hx with rfl | hx2
      · cases rev <;> simpa using hs
      · exact ih hall.2 _ x hx2

/-- C9: `inverse` fails exactly when the non-lost spans, sorted by source
position, contain a consecutive pair whose next start is strictly before the
previous end; with no such overlap it succeeds and returns a map. -/
theorem c9_inverse_overlap (m : FeatureMap) (hv : FeatureMap.validb m = true) :
    ((∃ e, FeatureMap.inverse m = Except.error e) ↔
      FeatureMap.overlapb m = true) ∧
    ((∃ r, FeatureMap.inverse m = Except.ok r) ↔
      FeatureMap.overlapb m = false) := by
  have hok : exceptOk (FeatureMap.inverse m) = !FeatureMap.overlapb m := by
    unfold FeatureMap.inverse FeatureMap.overlapb
    rw [exceptOk_map]
    cases hl : FeatureMap.sortLex4 (FeatureMap.tempGo 0 m.spans) with
    | nil => rfl
    | cons a rest =>
      obtain ⟨s, e, cs, ce⟩ := a
      rw [invFold_ok_cons]
      have hmem : ((s, e, cs, ce) : Int × Int × Int × Int) ∈
          FeatureMap.sortLex4 (FeatureMap.tempGo 0 m.spans) := by
        rw [hl]
        simp
      have hs0 : (0 : Int) ≤ s := by
        have := tempGo_fst_nonneg m.spans hv 0 _ (mem_sortLex4.mp hmem)
        simpa using this
      rw [decide_eq_true hs0, Bool.true_and]
      have := invFold_ok_aux m.parent_length rest ⟨s, e, cs, ce⟩
      simp only at this
      rw [this]
  cases hinv : FeatureMap.inverse m with
  | ok r =>
    rw [hinv] at hok
    have hb : FeatureMap.overlapb m = false := by
      cases hb2 : FeatureMap.overlapb m
      · rfl
      · rw [hb2] at hok
        simp [exceptOk] at hok
    refine ⟨⟨?_, ?_⟩, ⟨fun _ => hb, fun _ => ⟨r, rfl⟩⟩⟩
    · rintro ⟨e2, he2⟩
      exact absurd he2 (by simp)
    · intro h
      rw [hb] at h
      exact absurd h (by simp)
  | error e =>
    rw [hinv] at hok
    have hb : FeatureMap.overlapb m = true := by
      cases hb2 : FeatureMap.overlapb m
      · rw [hb2] at hok
        simp [exceptOk] at hok
      · rfl
    refine ⟨⟨fun _ => hb, fun _ => ⟨e, rfl⟩⟩, ⟨?_, ?_⟩⟩
    · rintro ⟨r2, hr2⟩
      exact absurd hr2 (by simp)
    · intro h
      rw [hb] at h
      exact absurd h (by simp)

/-- witness for `c9_inverse_overlap`: an overlapping pair of spans makes
`inverse` fail, and a non-overlapping map inverts successfully. -/
theorem c9_inverse_overlap_witness :
    (∃ e, FeatureMap.inverse
      ⟨[MSpan.span 10 20 false, MSpan.span 15 25 false], 30⟩ =
      Except.error e) ∧
    (∃ r, FeatureMap.inverse
      ⟨[MSpan.span 10 20 false, MSpan.span 25 30 false], 40⟩ =
      Except.ok r) :=
  ⟨(c9_inverse_overlap ⟨[MSpan.span 10 20 false, MSpan.span 15 25 false], 30⟩
      (by decide)).1.mpr (by decide),
   (c9_inverse_overlap ⟨[MSpan.span 10 20 false, MSpan.span 25 30 false], 40⟩
      (by decide)).2.mpr (by decide)⟩

theorem lenIM_ofGapLengths (ps lens : List Int) (pl : Int)
    (h : ps.length = lens.length) :
    IndelMap.lenIM (IndelMap.ofGapLengths ps lens pl) = pl + lens.sum := by
  unfold IndelMap.lenIM IndelMap.ofGapLengths IndelMap.num_gaps
  dsimp only
  by_cases h0 : ps.length = 0
  · rw [if_pos h0]
    have hnil : lens = [] := List.length_eq_zero.mp (by omega)
    simp [hnil]
  · rw [if_neg h0, h]
    rw [show (cumsum lens).getD (lens.length - 1) 0 =
      (cumsum lens).getD (lens.length - 1) 0 from rfl]
    rw [cumsum_getD_last lens (by
      intro hnil
      rw [hnil, List.length_nil] at h
      exact h0 h)]

theorem getD_drop (l : List Int) (k j : Nat) (h : k + j < l.length) :
    (l.drop k).getD j 0 = l.getD (k + j) 0 := by
  have h2 : j < (l.drop k).length := by
    rw [List.length_drop]
    omega
  rw [List.getD_eq_getElem _ 0 h2, List.getD_eq_getElem _ 0 h]
  exact List.getElem_drop ..

theorem ssl_eq_zero (l : List Int) (v : Int) (h : ¬ (l.getD 0 0 < v)) :
    ssl l v = 0 := by
  cases l with
  | nil => rfl
  | cons a t =>
    simp only [List.getD_cons_zero] at h
    simp [ssl, if_neg h]

theorem ssr_pos_head (l : List Int) (v : Int) (hne : l ≠ [])
    (h : l.getD 0 0 ≤ v) : 1 ≤ ssr l v := by
  cases l with
  | nil => exact absurd rfl hne
  | cons a t =>
    simp only [List.getD_cons_zero] at h
    simp [ssr, if_pos h]

/-- the main-branch length computation of the slice: once the retained gap
lengths `L2` agree with the clamp differences on `[bi, ei)` (and the gaps
outside that window lie entirely before `lo` resp. after `hi`), the sliced
map has length `hi - lo`. -/
theorem c5_final (m : IndelMap) (hm : VParts m) (lo hi shift : Int)
    (hlohi : lo ≤ hi)
    (bi ei : Nat) (L2 : List Int)
    (hbiei : bi ≤ ei) (hein : ei ≤ m.num_gaps)
    (hL2len : L2.length = m.num_gaps)
    (hpre : ∀ i, i < bi → (IndelMap.gapEnds m).getD i 0 ≤ lo)
    (hpost : ∀ i, ei ≤ i → i < m.num_gaps →
      hi ≤ (IndelMap.gapStarts m).getD i 0)
    (hmid : ∀ i, bi ≤ i → i < ei →
      L2.getD i 0 = clampTerm m hi i - clampTerm m lo i) :
    Except.map IndelMap.lenIM ((Except.ok (IndelMap.ofGapLengths
      (((m.gap_pos.take ei).drop bi).map (· - shift))
      ((L2.take ei).drop bi)
      (hi - gamma m hi - (lo - gamma m lo)))) : Except String IndelMap) =
      Except.ok (hi - lo) := by
  have hng : m.num_gaps = m.gap_pos.length := rfl
  have hplen : (((m.gap_pos.take ei).drop bi).map (· - shift)).length =
      ((L2.take ei).drop bi).length := by
    simp only [List.length_map, List.length_drop, List.length_take]
    omega
  show Except.ok (IndelMap.lenIM (IndelMap.ofGapLengths _ _ _)) = _
  refine congrArg Except.ok ?_
  rw [lenIM_ofGapLengths _ _ _ hplen]
  rw [drop_take_sum L2 bi ei hbiei (by omega)]
  have hkey : ∑ i in Finset.Ico bi ei, L2.getD i 0 =
      gamma m hi - gamma m lo := by
    have hmid2 : ∑ i in Finset.Ico bi ei, L2.getD i 0 =
        ∑ i in Finset.Ico bi ei,
          (clampTerm m hi i - clampTerm m lo i) :=
      Finset.sum_congr rfl (fun i hi2 =>
        hmid i (Finset.mem_Ico.mp hi2).1 (Finset.mem_Ico.mp hi2).2)
    rw [hmid2]
    unfold gamma
    rw [← Finset.sum_sub_distrib]
    have e1 : ∑ i in Finset.Ico 0 bi,
        (clampTerm m hi i - clampTerm m lo i) = 0 :=
      Finset.sum_eq_zero (fun i hi2 => by
        have hib : i < bi := (Finset.mem_Ico.mp hi2).2
        have hin : i < m.num_gaps := by omega
        rw [clampTerm_of_ends_le m hm hi i hin
            (le_trans (hpre i hib) hlohi),
          clampTerm_of_ends_le m hm lo i hin (hpre i hib)]
        ring)
    have e3 : ∑ i in Finset.Ico ei m.num_gaps,
        (clampTerm m hi i - clampTerm m lo i) = 0 :=
      Finset.sum_eq_zero (fun i hi2 => by
        have hie : ei ≤ i := (Finset.mem_Ico.mp hi2).1
        have hin : i < m.num_gaps := (Finset.mem_Ico.mp hi2).2
        rw [clampTerm_of_le_starts m hi i (hpost i hie hin),
          clampTerm_of_le_starts m lo i
            (le_trans hlohi (hpost i hie hin))]
        ring)
    rw [Finset.range_eq_Ico]
    rw [← Finset.sum_Ico_consecutive
      (fun i => clampTerm m hi i - clampTerm m lo i) (Nat.zero_le bi)
      (le_trans hbiei hein)]
    rw [← Finset.sum_Ico_consecutive
      (fun i => clampTerm m hi i - clampTerm m lo i) hbiei hein]
    rw [e1, e3]
    ring
  rw [hkey]
  ring

/-- the stop-side case analysis of the slice main branch: given the
start-side facts about `bi` and the once-trimmed lengths `L1`, every stop
case yields a slice of length `hi - lo`. -/
theorem c5_stop_side (m : IndelMap) (hm : VParts m) (lo hi shift : Int)
    (hlohi : lo < hi)
    (K bi : Nat) (hKn : K < m.num_gaps) (hKbi : K ≤ bi)
    (L1 : List Int) (hL1len : L1.length = m.num_gaps)
    (hbir : bi ≤ ssr ((IndelMap.gapEnds m).drop K) hi + K)
    (hpre : ∀ i, i < bi → (IndelMap.gapEnds m).getD i 0 ≤ lo)
    (hmidL : ∀ i, bi ≤ i → i < m.num_gaps →
      L1.getD i 0 = m.get_gap_lengths.getD i 0 - clampTerm m lo i)
    (ei : Nat) (L2 : List Int)
    (hEL : (ei, L2) =
      (if ssr ((IndelMap.gapEnds m).drop K) hi + K = m.num_gaps then
        (ssr ((IndelMap.gapEnds m).drop K) hi + K, L1)
      else if (IndelMap.gapStarts m).getD
            (ssr ((IndelMap.gapEnds m).drop K) hi + K) 0 < hi ∧
          hi ≤ (IndelMap.gapEnds m).getD
            (ssr ((IndelMap.gapEnds m).drop K) hi + K) 0 then
        (ssr ((IndelMap.gapEnds m).drop K) hi + K + 1,
          L1.set (ssr ((IndelMap.gapEnds m).drop K) hi + K)
            (L1.getD (ssr ((IndelMap.gapEnds m).drop K) hi + K) 0 -
              ((IndelMap.gapEnds m).getD
                (ssr ((IndelMap.gapEnds m).drop K) hi + K) 0 - hi)))
      else (ssr ((IndelMap.gapEnds m).drop K) hi + K, L1))) :
    Except.map IndelMap.lenIM ((Except.ok (IndelMap.ofGapLengths
      (((m.gap_pos.take ei).drop bi).map (· - shift))
      ((L2.take ei).drop bi)
      (hi - gamma m hi - (lo - gamma m lo)))) : Except String IndelMap) =
      Except.ok (hi - lo) := by
  set r := ssr ((IndelMap.gapEnds m).drop K) hi + K with hrdef
  have hgelen : (IndelMap.gapEnds m).length = m.num_gaps :=
    IndelMap.gapEnds_length m hm.hlen
  have hdroplen : ((IndelMap.gapEnds m).drop K).length = m.num_gaps - K := by
    rw [List.length_drop, hgelen]
  have hssrle := ssr_le ((IndelMap.gapEnds m).drop K) hi
  have hrn : r ≤ m.num_gaps := by omega
  have hKr : K ≤ r := by omega
  have hrelem : ∀ i, K ≤ i → i < r →
      (IndelMap.gapEnds m).getD i 0 ≤ hi := by
    intro i h1 h2
    have hh := ssr_elem ((IndelMap.gapEnds m).drop K) hi (i - K) (by omega)
    rw [getD_drop _ K (i - K) (by omega),
      show K + (i - K) = i by omega] at hh
    exact hh
  have hrstop : r < m.num_gaps → hi < (IndelMap.gapEnds m).getD r 0 := by
    intro h
    have hh := ssr_stop ((IndelMap.gapEnds m).drop K) hi (by omega)
    rw [getD_drop _ K _ (by omega),
      show K + ssr ((IndelMap.gapEnds m).drop K) hi = r by omega] at hh
    exact hh
  have hmid1 : ∀ i, bi ≤ i → i < r →
      L1.getD i 0 = clampTerm m hi i - clampTerm m lo i := by
    intro i h1 h2
    have hin : i < m.num_gaps := by omega
    rw [hmidL i h1 hin,
      clampTerm_of_ends_le m hm hi i hin (hrelem i (by omega) h2)]
  by_cases hT1 : r = m.num_gaps
  · rw [if_pos hT1] at hEL
    injection hEL with he1 he2
    rw [he1, he2]
    refine c5_final m hm lo hi shift (le_of_lt hlohi) bi r L1 (by omega)
      (by omega) hL1len hpre ?_ ?_
    · intro i h1 h2
      omega
    · exact hmid1
  · by_cases hT2 : (IndelMap.gapStarts m).getD r 0 < hi ∧
        hi ≤ (IndelMap.gapEnds m).getD r 0
    · rw [if_neg hT1, if_pos hT2] at hEL
      injection hEL with he1 he2
      rw [he1, he2]
      have hrn2 : r < m.num_gaps := by omega
      refine c5_final m hm lo hi shift (le_of_lt hlohi) bi (r + 1) _
        (by omega) (by omega) (by rw [List.length_set]; exact hL1len) hpre
        ?_ ?_
      · intro i h1 h2
        have hels := IndelMap.ends_lt_starts m hm (show r < i by omega) h2
        have := hT2.2
        omega
      · intro i h1 h2
        by_cases hir : r = i
        · rw [getD_set_lt _ _ _ _ (by omega : i < L1.length), if_pos hir]
          subst hir
          rw [hmidL r (by omega) (by omega)]
          rw [clampTerm_within m hm hi r (by omega) (le_of_lt hT2.1) hT2.2]
          have := IndelMap.starts_add_lens m hm r (by omega)
          omega
        · rw [getD_set_lt _ _ _ _ (by omega : i < L1.length), if_neg hir]
          exact hmid1 i h1 (by omega)
    · rw [if_neg hT1, if_neg hT2] at hEL
      injection hEL with he1 he2
      rw [he1, he2]
      have hrn2 : r < m.num_gaps := by omega
      have hge : hi < (IndelMap.gapEnds m).getD r 0 := hrstop hrn2
      have hgs : hi ≤ (IndelMap.gapStarts m).getD r 0 := by
        rcases not_and_or.mp hT2 with h | h
        · omega
        · omega
      refine c5_final m hm lo hi shift (le_of_lt hlohi) bi r L1 (by omega)
        (by omega) hL1len hpre ?_ hmid1
      intro i h1 h2
      have := IndelMap.starts_mono m hm h1 h2
      omega

/-- C5: slice size law — for `0 ≤ lo ≤ hi ≤ len(m)`, the slice `m[lo:hi]`
has length `hi - lo`. -/
theorem c5_slice_size_law (m : IndelMap) (hv : m.validb = true) (lo hi : Int)
    (hlo0 : 0 ≤ lo) (hlohi : lo ≤ hi) (hhilen : hi ≤ IndelMap.lenIM m) :
    Except.map IndelMap.lenIM (IndelMap.getitem_slice m lo hi) =
      Except.ok (hi - lo) := by
  have hm := IndelMap.validb_vparts m hv
  have hng : m.num_gaps = m.gap_pos.length := rfl
  have hcslen : m.cum_gap_lengths.length = m.num_gaps := by
    have := hm.hlen
    omega
  have hhi0 : 0 ≤ hi := le_trans hlo0 hlohi
  simp only [IndelMap.getitem_slice, if_neg (not_lt.mpr hlo0),
    if_neg (not_lt.mpr hhi0)]
  rw [if_neg (not_lt.mpr (le_min hlo0 hhi0))]
  by_cases hA : hi ≤ lo
  · rw [if_pos hA]
    have heq : hi = lo := le_antisymm hA hlohi
    rw [heq]
    simp [Except.map, IndelMap.lenIM, IndelMap.num_gaps]
  rw [if_neg hA]
  push_neg at hA
  by_cases hB : m.num_gaps = 0
  · rw [if_pos hB]
    simp [Except.map, IndelMap.lenIM, IndelMap.num_gaps]
  rw [if_neg hB]
  by_cases hC : hi < m.gap_pos.getD 0 0 ∨
      m.gap_pos.getD (m.num_gaps - 1) 0 +
        m.cum_gap_lengths.getD (m.num_gaps - 1) 0 ≤ lo
  · rw [if_pos hC]
    simp [Except.map, IndelMap.lenIM, IndelMap.num_gaps]
  rw [if_neg hC]
  push_neg at hC
  obtain ⟨hfg, hlg⟩ := hC
  have hlg2 : lo < (IndelMap.gapEnds m).getD (m.num_gaps - 1) 0 := by
    rw [IndelMap.gapEnds_getD m hm.hlen _ (by omega)]
    exact hlg
  have hgelen : (IndelMap.gapEnds m).length = m.num_gaps :=
    IndelMap.gapEnds_length m hm.hlen
  have hln : ssl (IndelMap.gapEnds m) lo < m.num_gaps := by
    rcases lt_or_eq_of_le (ssl_le (IndelMap.gapEnds m) lo) with h | h
    · omega
    · exfalso
      have := ssl_lt_elem (IndelMap.gapEnds m) lo (m.num_gaps - 1) (by omega)
      omega
  have hKstop : lo ≤ (IndelMap.gapEnds m).getD (ssl (IndelMap.gapEnds m) lo) 0 :=
    ssl_stop _ lo (by omega)
  have hKpre : ∀ i, i < ssl (IndelMap.gapEnds m) lo →
      (IndelMap.gapEnds m).getD i 0 ≤ lo :=
    fun i hi2 => le_of_lt (ssl_lt_elem _ lo i hi2)
  by_cases hD : ((IndelMap.gapStarts m).getD (ssl (IndelMap.gapEnds m) lo) 0 ≤ lo ∧
      lo < (IndelMap.gapEnds m).getD (ssl (IndelMap.gapEnds m) lo) 0) ∧
      hi ≤ (IndelMap.gapEnds m).getD (ssl (IndelMap.gapEnds m) lo) 0
  · rw [if_pos hD]
    simp [Except.map, IndelMap.lenIM, IndelMap.num_gaps]
  rw [if_neg hD]
  rw [seq_char m hm hi hhi0, seq_char m hm lo hlo0]
  have hlenslen : m.get_gap_lengths.length = m.num_gaps := by
    rw [IndelMap.lens_length]
    exact hcslen
  by_cases hS1 : lo < m.gap_pos.getD 0 0
  · rw [if_pos hS1]
    refine c5_stop_side m hm lo hi _ hA (ssl (IndelMap.gapEnds m) lo) 0 hln
      ?_ m.get_gap_lengths hlenslen (by omega) ?_ ?_ _ _ rfl
    · -- K = 0 here since the first gap end exceeds lo
      have hK0 : ssl (IndelMap.gapEnds m) lo = 0 := by
        refine ssl_eq_zero _ lo ?_
        have hse := IndelMap.starts_lt_ends m hm 0 (by omega)
        have hs0 : (IndelMap.gapStarts m).getD 0 0 = m.gap_pos.getD 0 0 := by
          rw [IndelMap.gapStarts_getD m hm.hlen 0 (by omega)]
          simp
        omega
      omega
    · intro i hi2
      omega
    · intro i hi2 hin
      rw [clampTerm_of_le_starts m lo i ?_]
      · ring
      · have hs0 : (IndelMap.gapStarts m).getD 0 0 = m.gap_pos.getD 0 0 := by
          rw [IndelMap.gapStarts_getD m hm.hlen 0 (by omega)]
          simp
        have := IndelMap.starts_mono m hm (Nat.zero_le i) hin
        omega
  rw [if_neg hS1]
  by_cases hS2 : (IndelMap.gapStarts m).getD (ssl (IndelMap.gapEnds m) lo) 0 ≤ lo ∧
      lo < (IndelMap.gapEnds m).getD (ssl (IndelMap.gapEnds m) lo) 0
  · rw [if_pos hS2]
    refine c5_stop_side m hm lo hi _ hA (ssl (IndelMap.gapEnds m) lo)
      (ssl (IndelMap.gapEnds m) lo) hln (le_refl _) _
      (by rw [List.length_set]; exact hlenslen) (by omega) hKpre ?_ _ _ rfl
    intro i hi2 hin
    by_cases hieq : ssl (IndelMap.gapEnds m) lo = i
    · rw [getD_set_lt _ _ _ _ (by omega : i < m.get_gap_lengths.length),
        if_pos hieq]
      subst hieq
      rw [clampTerm_within m hm lo _ hln hS2.1 (le_of_lt hS2.2)]
    · rw [getD_set_lt _ _ _ _ (by omega : i < m.get_gap_lengths.length),
        if_neg hieq]
      rw [clampTerm_of_le_starts m lo i ?_]
      · ring
      · have hlt : ssl (IndelMap.gapEnds m) lo < i := by omega
        have := IndelMap.ends_lt_starts m hm hlt hin
        have := hS2.2
        omega
  rw [if_neg hS2]
  by_cases hS3 : lo = (IndelMap.gapEnds m).getD (ssl (IndelMap.gapEnds m) lo) 0
  · rw [if_pos hS3]
    refine c5_stop_side m hm lo hi _ hA (ssl (IndelMap.gapEnds m) lo)
      (ssl (IndelMap.gapEnds m) lo + 1) hln (by omega) m.get_gap_lengths
      hlenslen ?_ ?_ ?_ _ _ rfl
    · -- bi = K + 1 ≤ r since ge_K = lo < hi
      have hdz : ((IndelMap.gapEnds m).drop (ssl (IndelMap.gapEnds m) lo)).getD 0 0 =
          (IndelMap.gapEnds m).getD (ssl (IndelMap.gapEnds m) lo) 0 := by
        rw [getD_drop _ _ 0 (by omega), Nat.add_zero]
      have hpos := ssr_pos_head
        ((IndelMap.gapEnds m).drop (ssl (IndelMap.gapEnds m) lo)) hi
        (by
          intro hnil
          have := congrArg List.length hnil
          simp only [List.length_drop, List.length_nil] at this
          omega)
        (by rw [hdz, ← hS3]; exact le_of_lt hA)
      omega
    · intro i hi2
      rcases Nat.lt_succ_iff_lt_or_eq.mp hi2 with h | h
      · exact hKpre i h
      · subst h
        omega
    · intro i hi2 hin
      rw [clampTerm_of_le_starts m lo i ?_]
      · ring
      · have := IndelMap.ends_lt_starts m hm
          (show ssl (IndelMap.gapEnds m) lo < i by omega) hin
        omega
  rw [if_neg hS3]
  refine c5_stop_side m hm lo hi _ hA (ssl (IndelMap.gapEnds m) lo)
    (ssl (IndelMap.gapEnds m) lo) hln (le_refl _) m.get_gap_lengths
    hlenslen (by omega) hKpre ?_ _ _ rfl
  have hlogs : lo < (IndelMap.gapStarts m).getD (ssl (IndelMap.gapEnds m) lo) 0 := by
    have hne : lo < (IndelMap.gapEnds m).getD (ssl (IndelMap.gapEnds m) lo) 0 :=
      lt_of_le_of_ne hKstop hS3
    rcases not_and_or.mp hS2 with h | h
    · omega
    · omega
  intro i hi2 hin
  rw [clampTerm_of_le_starts m lo i ?_]
  · ring
  · have := IndelMap.starts_mono m hm hi2 hin
    omega

/-- witness for `c5_slice_size_law` at a concrete valid map and slice. -/
theorem c5_slice_size_law_witness :
    Except.map IndelMap.lenIM
      (IndelMap.getitem_slice ⟨[2, 5], [1, 3], false, 10⟩ 3 9) =
      Except.ok 6 :=
  c5_slice_size_law ⟨[2, 5], [1, 3], false, 10⟩ (by decide) 3 9 (by decide)
    (by decide) (by decide)

end Cogent3
